import Mathlib

/- Shallow embedding of the nqrduck host core: the signal-dispatch bus
   (MainController.dispatch_signals), module loading (MainController.load_modules,
   MainModel.add_module), module discovery (MainController._get_modules), and the
   install wizard (SelectionPage checkbox/dependency propagation,
   ListInstallPage.get_install_modules, InstallPage.InstallThread.run). -/

namespace Nqrduck

/- ## Signal bus: MainController.dispatch_signals

   Effects of one dispatch call are recorded as an event list: a
   `procSignal` event per `module.controller.process_signals(key, value)` call,
   a `statusbar` event for `self.main_model.statusbar_message = value`, and a
   `notify` event for `self.create_notification_dialog.emit(value)`.
   `α` is the type of loaded module objects, `V` the type of signal values. -/

inductive DispatchEvent (α : Type) (V : Type) where
  | procSignal (m : α) (key : String) (value : V)
  | statusbar (value : V)
  | notify (value : V)
deriving DecidableEq, Repr

/-- `MainController.dispatch_signals`, iterating over
`self.main_model.loaded_modules.values()`: each loop iteration first tests the
two reserved keys (setting the status bar resp. emitting the notification
dialog signal, then `break`), and otherwise calls
`module.controller.process_signals(key, value)`. -/
def dispatch_signals {α V : Type} (mods : List α) (key : String) (value : V) :
    List (DispatchEvent α V) :=
  match mods with
  | [] => []
  | m :: rest =>
      if key = "statusbar_message" then
        [DispatchEvent.statusbar value]
      else if key = "notification" then
        [DispatchEvent.notify value]
      else
        DispatchEvent.procSignal m key value :: dispatch_signals rest key value

/- Variant of the dispatch loop that models a module handler raising an
   exception: each module carries a predicate telling on which (key, value)
   pairs its `process_signals` raises.  Python propagates an uncaught
   exception out of the `for` loop, so the loop stops; the Bool result
   records whether the dispatch call terminated with an exception. -/

structure ModuleSim (V : Type) where
  name : String
  raisesOn : String → V → Bool

/-- `MainController.dispatch_signals` with exception propagation: there is no
try/except around `module.controller.process_signals(key, value)`, so a raising
handler aborts the loop after its own invocation. Returns the recorded events
and whether an exception escaped. -/
def dispatch_signalsExc {V : Type} (mods : List (ModuleSim V)) (key : String) (value : V) :
    List (DispatchEvent String V) × Bool :=
  match mods with
  | [] => ([], false)
  | m :: rest =>
      if key = "statusbar_message" then
        ([DispatchEvent.statusbar value], false)
      else if key = "notification" then
        ([DispatchEvent.notify value], false)
      else
        if m.raisesOn key value then
          ([DispatchEvent.procSignal m.name key value], true)
        else
          let r := dispatch_signalsExc rest key value
          (DispatchEvent.procSignal m.name key value :: r.1, r.2)

/- ## MainModel.add_module and the loaded_modules dict

   `self._loaded_modules[name] = module` on a Python dict: an existing key
   keeps its position and gets the new value, a fresh key is appended. -/

/-- Python dict assignment `d[name] = module` on `MainModel._loaded_modules`,
modelled on an association list in insertion order. -/
def add_module {α : Type} (d : List (String × α)) (name : String) (m : α) :
    List (String × α) :=
  match d with
  | [] => [(name, m)]
  | (k, v) :: rest =>
      if k = name then (k, m) :: rest else (k, v) :: add_module rest name m

/-- Python dict lookup `d[name]` (first and only binding of the key). -/
def lookupDict {α : Type} (d : List (String × α)) (name : String) : Option α :=
  match d with
  | [] => none
  | (k, v) :: rest => if k = name then some v else lookupDict rest name

/- ## MainController.load_modules

   For every (entry point name, module) pair of `_get_modules()`:
   connect `module.nqrduck_signal` to `dispatch_signals`; if `module.view is
   None` skip the rest (`continue`); otherwise connect
   `module.model.widget_changed`, call
   `self.main_model.add_module(module._model.name, module)`, connect
   `module.view.add_menubar_item`, and call `module.controller.on_loading()`.
   After the loop, `main_view.on_settings_changed()` runs. -/

structure PyModule (μ : Type) where
  name : String
  view : Option μ
deriving DecidableEq, Repr

inductive LoadEvent (μ : Type) where
  | connectSignal (m : PyModule μ)
  | connectWidgetChanged (m : PyModule μ)
  | addModule (name : String) (m : PyModule μ)
  | connectMenubar (m : PyModule μ)
  | onLoading (m : PyModule μ)
  | settingsChanged
deriving DecidableEq, Repr

/-- `MainController.load_modules`, producing the ordered trace of connect /
register / lifecycle actions together with the resulting
`MainModel._loaded_modules` dict (threaded through `st`, initially empty). -/
def load_modules {μ : Type} (mods : List (String × PyModule μ)) (st : List (String × PyModule μ)) :
    List (LoadEvent μ) × List (String × PyModule μ) :=
  match mods with
  | [] => ([LoadEvent.settingsChanged], st)
  | (_, m) :: rest =>
      match m.view with
      | none =>
          let r := load_modules rest st
          (LoadEvent.connectSignal m :: r.1, r.2)
      | some _ =>
          let r := load_modules rest (add_module st m.name m)
          (LoadEvent.connectSignal m :: LoadEvent.connectWidgetChanged m ::
            LoadEvent.addModule m.name m :: LoadEvent.connectMenubar m ::
            LoadEvent.onLoading m :: r.1, r.2)

/- ## MainController._get_modules

   `importlib.metadata.entry_points().select(group="nqrduck")` raises
   AttributeError on Python 3.9, in which case the code falls back to
   `entry_points()["nqrduck"]` (which raises KeyError for a missing group).
   Each entry is loaded with `entry_point.load()`; a load failure is not
   caught anywhere and propagates. -/

inductive PyErr where
  | keyError
  | loadError (msg : String)
deriving DecidableEq, Repr

structure EntryPoint (α : Type) where
  name : String
  load : Except String α

/-- The importlib.metadata surface consumed by `_get_modules`: `select` is the
modern API (`.error ()` models the AttributeError raised on Python 3.9), and
`index` the legacy `entry_points()["nqrduck"]` dict lookup (`none` models the
KeyError for a missing group). -/
structure EPApi (α : Type) where
  select : Except Unit (List (EntryPoint α))
  index : Option (List (EntryPoint α))

/-- The loading loop of `_get_modules`: `modules[entry_point.name] =
entry_point.load()`, with a load failure propagating out of the loop. -/
def loadAll {α : Type} (eps : List (EntryPoint α)) (acc : List (String × α)) :
    Except PyErr (List (String × α)) :=
  match eps with
  | [] => Except.ok acc
  | ep :: rest =>
      match ep.load with
      | Except.ok m => loadAll rest (add_module acc ep.name m)
      | Except.error msg => Except.error (PyErr.loadError msg)

/-- `MainController._get_modules`: try the modern entry-point API, fall back to
the legacy dict access on AttributeError, and load every entry in turn. -/
def get_modules {α : Type} (api : EPApi α) : Except PyErr (List (String × α)) :=
  match api.select with
  | Except.ok eps => loadAll eps []
  | Except.error () =>
      match api.index with
      | some eps => loadAll eps []
      | none => Except.error PyErr.keyError

/- ## InstallPage.InstallThread.run

   For each selected module in order: `process.start("pip", ["install",
   module])`, wait for it to start, wait (indefinitely) for it to exit, then
   proceed to the next; after the loop `completed_signal.emit(True)`.  The
   exit code of the external process is never inspected. -/

inductive InstallEvent where
  | start (m : String)
  | exited (m : String) (code : Int)
  | completed (b : Bool)
deriving DecidableEq, Repr

/-- `InstallPage.InstallThread.run`, as the ordered trace of process starts,
process exits (with the exit code the environment `ec` assigns to each
module's pip run, which the code never inspects) and the final
`completed_signal.emit(True)`. -/
def InstallThread_run (mods : List String) (ec : String → Int) : List InstallEvent :=
  match mods with
  | [] => [InstallEvent.completed true]
  | m :: rest =>
      InstallEvent.start m :: InstallEvent.exited m (ec m) :: InstallThread_run rest ec

/- ## Install wizard: SelectionPage checkbox/dependency propagation

   Each catalog entry of modules.json has a name and an optional
   "dependencies" list.  Each entry gets one QCheckBox carrying `isChecked`,
   `isEnabled` and a `manually_checked` property; the checkbox state of all
   entries is modelled as a function from names to `Cbx`.

   Qt semantics embedded here: `setChecked(b)` emits `stateChanged` (running
   `on_checkbox_changed` synchronously) only when the checked state actually
   changes; `setEnabled` emits nothing; a user click first toggles the
   checkbox (emitting `stateChanged`) and then emits `clicked` (running
   `on_checkbox_clicked`, which stores `manually_checked`). -/

structure CatEntry where
  name : String
  deps? : Option (List String)
deriving DecidableEq, Repr

structure Cbx where
  checked : Bool
  enabled : Bool
  manual : Bool
deriving DecidableEq, Repr

def St : Type := String → Cbx

def writeChecked (st : St) (n : String) (b : Bool) : St :=
  fun m => if m = n then { st m with checked := b } else st m

def writeEnabled (st : St) (n : String) (b : Bool) : St :=
  fun m => if m = n then { st m with enabled := b } else st m

def writeManual (st : St) (n : String) (b : Bool) : St :=
  fun m => if m = n then { st m with manual := b } else st m

/-- `SelectionPage.get_dependencies`: scan the module list for the first entry
whose name matches and whose "dependencies" key is present (a KeyError on a
matching entry without the key is caught and the scan continues); return `[]`
when none is found. -/
def get_dependencies (C : List CatEntry) (name : String) : List String :=
  match C with
  | [] => []
  | e :: rest =>
      if e.name = name then
        match e.deps? with
        | some ds => ds
        | none => get_dependencies rest name
      else get_dependencies rest name

/-- The generator expression
`any(self.checkboxes[other_module["name"]].isChecked() for other_module in
self.modules if dependency_name in other_module.get("dependencies", []))`. -/
def anyCheckedDependent (C : List CatEntry) (st : St) (depName : String) : Bool :=
  C.any (fun e => decide (depName ∈ e.deps?.getD []) && (st e.name).checked)

/-- The catalog's checkbox keys, `self.checkboxes` (one checkbox per module). -/
def names (C : List CatEntry) : List String := C.map (fun e => e.name)

/-- `handle_dependency_action(dependency_name, check_state)` inside
`SelectionPage.on_checkbox_changed`, including the recursive `stateChanged`
cascade fired by `setChecked` when the dependency's checked state flips
(modelled with `fuel` bounding the cascade nesting depth): compute the
required state (kept `True` for a manually checked dependency or one still
required by another checked module), `setChecked` it (recursively handling the
dependency's own dependencies on a flip), then recompute and set `enabled`. -/
def handleDep (C : List CatEntry) (I : List String) :
    Nat → Bool → St → String → St
  | fuel, isChecked, st, d =>
    if d ∈ names C then
      let required := isChecked || (st d).manual || anyCheckedDependent C st d
      let st1 :=
        if (st d).checked = required then st
        else
          let stw := writeChecked st d required
          match fuel with
          | 0 => stw
          | f + 1 => (get_dependencies C d).foldl (fun s d2 => handleDep C I f required s d2) stw
      writeEnabled st1 d (!(decide (d ∈ I)) && !(anyCheckedDependent C st1 d))
    else st

/-- The loop `for dependency in dependencies: handle_dependency_action(...)`
over a list of dependency names. -/
def cascadeFold (C : List CatEntry) (I : List String)
    (fuel : Nat) (isChecked : Bool) (st : St) (ds : List String) : St :=
  ds.foldl (fun s d => handleDep C I fuel isChecked s d) st

/-- `SelectionPage.on_checkbox_changed(state, module_name)`: apply
`handle_dependency_action` to every direct dependency of the module, in
order.  `state` is the Qt check state (`2` for checked), here already the
Boolean `is_checked`. -/
def on_checkbox_changed (C : List CatEntry) (I : List String)
    (fuel : Nat) (isChecked : Bool) (st : St) (moduleName : String) : St :=
  cascadeFold C I fuel isChecked st (get_dependencies C moduleName)

/-- A user click on an enabled checkbox: Qt toggles the widget's checked
state, emits `stateChanged` (running `on_checkbox_changed`) and then emits
`clicked` (running `on_checkbox_clicked`, which stores the new state in the
`manually_checked` property). -/
def userToggle (C : List CatEntry) (I : List String)
    (fuel : Nat) (st : St) (moduleName : String) (b : Bool) : St :=
  writeManual (on_checkbox_changed C I fuel b (writeChecked st moduleName b) moduleName)
    moduleName b

/-- `ListInstallPage.get_install_modules`: every checkbox key that is checked
and not among the already installed modules, in checkbox insertion order. -/
def get_install_modules (ks : List String) (st : St) (I : List String) : List String :=
  ks.filter (fun k => (st k).checked && !(decide (k ∈ I)))

/-- Initial checkbox state built by `generate_installation_widgets`: every
checkbox starts unchecked, enabled, with `manually_checked` False; a module
already installed is then set checked and disabled. -/
def initialSt (I : List String) : St :=
  fun n => if n ∈ I then ⟨true, false, false⟩ else ⟨false, true, false⟩

/- ## Invariants of a selection state

   These characterise the states actually produced by the wizard: every
   checked module has all its catalog dependencies checked, and every
   checkbox's enabled flag agrees with the `can_enable` formula the handler
   recomputes (not installed, and not required by any checked module). -/

/-- Every checked entry has all of its in-catalog dependencies checked. -/
def depsClosed (C : List CatEntry) (st : St) : Prop :=
  ∀ e ∈ C, (st e.name).checked = true →
    ∀ d ∈ e.deps?.getD [], d ∈ names C → (st d).checked = true

/-- The checkbox `n` has the enabled flag the handler's `can_enable` formula
assigns to it. -/
def StableAt (C : List CatEntry) (I : List String) (st : St) (n : String) : Prop :=
  (st n).enabled = (!(decide (n ∈ I)) && !(anyCheckedDependent C st n))

/-- Every catalog checkbox satisfies the `can_enable` formula. -/
def enabledConsistent (C : List CatEntry) (I : List String) (st : St) : Prop :=
  ∀ n ∈ names C, StableAt C I st n

/-- Number of checked catalog checkboxes (used to bound cascade nesting). -/
def cntTrue (C : List CatEntry) (st : St) : Nat :=
  ((names C).filter (fun n => (st n).checked)).length

/-- Number of unchecked catalog checkboxes (used to bound cascade nesting). -/
def cntFalse (C : List CatEntry) (st : St) : Nat :=
  ((names C).filter (fun n => !(st n).checked)).length

/-- The checked state of every module that lists `n` as a dependency agrees
between `st` and `st'` — so the `can_enable` formula for `n` is unchanged. -/
def InputsEq (C : List CatEntry) (st st' : St) (n : String) : Prop :=
  ∀ e ∈ C, n ∈ e.deps?.getD [] → (st' e.name).checked = (st e.name).checked

/-- Every element of `K` either belongs to `roots` or is a direct dependency
of an earlier element of `K` (with `earlier` accumulating the prefix). -/
def KillChainAux (C : List CatEntry) (roots : List String) :
    List String → List String → Prop
  | _, [] => True
  | earlier, n :: K =>
      (n ∈ roots ∨ ∃ p ∈ earlier, n ∈ get_dependencies C p) ∧
      KillChainAux C roots (earlier ++ [n]) K

def KillChain (C : List CatEntry) (roots : List String) (K : List String) : Prop :=
  KillChainAux C roots [] K

/-- Invariant maintained throughout the uncheck cascade started by toggling
`M` off in state `st0`: checked flags only decrease, `manually_checked` is
untouched, every unchecked-but-originally-checked node other than `M` was
neither manually checked nor still required, and `M` itself is only changed
in its checked flag. -/
structure PreA (C : List CatEntry) (st0 : St) (M : String) (st : St) : Prop where
  checkedLe : ∀ n, (st n).checked = true → (st0 n).checked = true
  manualEq : ∀ n, (st n).manual = (st0 n).manual
  killedFree : ∀ n, n ≠ M → (st0 n).checked = true → (st n).checked = false →
    (st0 n).manual = false ∧ anyCheckedDependent C st n = false
  atM : st M = { st0 M with checked := false }

/-- Postcondition of one uncheck-cascade segment over worklist `ds`. -/
structure PostA (C : List CatEntry) (I : List String) (M : String)
    (st : St) (ds : List String) (st' : St) : Prop where
  mono : ∀ n, (st' n).checked = true → (st n).checked = true
  manualEq : ∀ n, (st' n).manual = (st n).manual
  untouchedM : st' M = st M
  outside : ∀ n, n ∉ names C → st' n = st n
  stabDs : ∀ n ∈ ds, n ∈ names C → StableAt C I st' n
  stabAll : ∀ n ∈ names C,
    StableAt C I st' n ∨ ((st' n).enabled = (st n).enabled ∧ InputsEq C st st' n)
  kills : ∃ K : List String,
    (∀ n ∈ K, n ∈ names C ∧ (st' n).checked = false ∧ (st n).checked = true) ∧
    (∀ n, (st' n).checked = false → (st n).checked = false ∨ n ∈ K) ∧
    KillChain C ds K

/-- Postcondition of one check-cascade segment over worklist `ds`. -/
structure PostB (C : List CatEntry) (I : List String) (st0 : St) (M : String)
    (st : St) (ds : List String) (st' : St) : Prop where
  monoUp : ∀ n, (st n).checked = true → (st' n).checked = true
  flipBound : ∀ n, (st' n).checked = true →
    (st n).checked = true ∨ ((st0 n).checked = true ∧ n ≠ M)
  manualEq : ∀ n, (st' n).manual = (st n).manual
  untouchedM : st' M = st M
  outside : ∀ n, n ∉ names C → st' n = st n
  stabDs : ∀ n ∈ ds, n ∈ names C → StableAt C I st' n
  stabAll : ∀ n ∈ names C,
    StableAt C I st' n ∨ ((st' n).enabled = (st n).enabled ∧ InputsEq C st st' n)
  dsChecked : ∀ n ∈ ds, n ∈ names C → (st' n).checked = true
  flipDeps : ∀ p, (st p).checked = false → (st' p).checked = true →
    ∀ d ∈ get_dependencies C p, d ∈ names C → (st' d).checked = true

/-- Worklist condition for the two cascades: every in-catalog element was
checked in the pre-toggle state and differs from the toggled module. -/
def GoodDeps (C : List CatEntry) (st0 : St) (M : String) (ds : List String) : Prop :=
  ∀ d ∈ ds, d ∈ names C → (st0 d).checked = true ∧ d ≠ M

/- ## Concrete wizard instances for counterexamples and witnesses -/

/-- Catalog with one module `M` depending on `D`. -/
def exCatalog : List CatEntry := [⟨"M", some ["D"]⟩, ⟨"D", none⟩]

/-- A selection state violating dependency closure: `M` is checked but its
dependency `D` is not. -/
def exStBad : St :=
  fun n => if n = "M" then ⟨true, true, true⟩
    else if n = "D" then ⟨false, true, false⟩ else ⟨false, true, false⟩

/-- A wizard-reachable state: `M` manually checked, `D` auto-checked and
disabled as its dependency. -/
def exStGood : St :=
  fun n => if n = "M" then ⟨true, true, true⟩
    else if n = "D" then ⟨true, false, false⟩ else ⟨false, true, false⟩

/-- Catalog with module `B` depending on `A` (used with `A` installed). -/
def c6Catalog : List CatEntry := [⟨"B", some ["A"]⟩, ⟨"A", none⟩]

/- # Theorems -/

/- ## The dispatch loop on non-reserved and reserved keys -/

theorem dispatch_signals_eq_map {α V : Type} (mods : List α) (key : String) (value : V)
    (hs : key ≠ "statusbar_message") (hn : key ≠ "notification") :
    dispatch_signals mods key value =
      mods.map (fun m => DispatchEvent.procSignal m key value) := by
  induction mods with
  | nil => rfl
  | cons m rest ih => simp [dispatch_signals, hs, hn, ih]

theorem dispatch_signals_reserved_cons {α V : Type} (m : α) (rest : List α)
    (key : String) (value : V)
    (h : key = "statusbar_message" ∨ key = "notification") :
    dispatch_signals (m :: rest) key value =
      (if key = "statusbar_message" then [DispatchEvent.statusbar value]
       else [DispatchEvent.notify value]) := by
  rcases h with h | h <;> simp [dispatch_signals, h]

/-- C1. For every dispatch call whose key is neither "statusbar_message" nor
"notification", every module present in the loaded-modules collection at
dispatch time — including the module that emitted the event — has its
controller's `process_signals` invoked exactly once, with exactly the
dispatched (key, value) pair and no other. -/
theorem dispatch_signals_nonreserved_exactly_once {α V : Type}
    [DecidableEq α] [DecidableEq V]
    (mods : List α) (key : String) (value : V)
    (hs : key ≠ "statusbar_message") (hn : key ≠ "notification")
    (hnd : mods.Nodup) :
    ∀ m ∈ mods,
      (dispatch_signals mods key value).count
          (DispatchEvent.procSignal m key value) = 1 ∧
      ∀ (k' : String) (v' : V), (k', v') ≠ (key, value) →
        (dispatch_signals mods key value).count
          (DispatchEvent.procSignal m k' v') = 0 := by
  intro m hm
  rw [dispatch_signals_eq_map mods key value hs hn]
  constructor
  · have hinj : Function.Injective
        (fun m : α => (DispatchEvent.procSignal m key value : DispatchEvent α V)) := by
      intro a b hab
      simpa using hab
    rw [List.count_map_of_injective _ _ hinj]
    exact List.count_eq_one_of_mem hnd hm
  · intro k' v' hne
    rw [List.count_eq_zero]
    intro hmem
    rcases List.mem_map.mp hmem with ⟨a, _, ha⟩
    apply hne
    cases ha
    rfl

theorem dispatch_signals_nonreserved_exactly_once_witness :
    ("sig" : String) ≠ "statusbar_message" ∧ ("sig" : String) ≠ "notification" ∧
    ["m1", "m2"].Nodup ∧ "m1" ∈ (["m1", "m2"] : List String) ∧
    (dispatch_signals ["m1", "m2"] "sig" ("v" : String)).count
        (DispatchEvent.procSignal "m1" "sig" "v") = 1 := by
  refine ⟨by decide, by decide, by decide, by decide, ?_⟩
  exact (dispatch_signals_nonreserved_exactly_once ["m1", "m2"] "sig" "v"
    (by decide) (by decide) (by decide) "m1" (by decide)).1

/-- C2. For every dispatch call with a reserved key ("statusbar_message" or
"notification"), no module's `process_signals` is invoked at all, regardless
of how many modules are loaded. -/
theorem dispatch_signals_reserved_no_forward {α V : Type}
    (mods : List α) (key : String) (value : V)
    (h : key = "statusbar_message" ∨ key = "notification") :
    ∀ (m : α) (k' : String) (v' : V),
      DispatchEvent.procSignal m k' v' ∉ dispatch_signals mods key value := by
  intro m k' v' hmem
  cases mods with
  | nil => simp [dispatch_signals] at hmem
  | cons m0 rest =>
      rw [dispatch_signals_reserved_cons m0 rest key value h] at hmem
      rcases h with h | h <;> simp [h] at hmem

theorem dispatch_signals_reserved_no_forward_witness :
    (("statusbar_message" : String) = "statusbar_message" ∨
      ("statusbar_message" : String) = "notification") ∧
    DispatchEvent.procSignal "m1" "statusbar_message" "x" ∉
      dispatch_signals (["m1", "m2"] : List String) "statusbar_message" ("x" : String) :=
  ⟨Or.inl rfl,
    dispatch_signals_reserved_no_forward ["m1", "m2"] "statusbar_message" "x"
      (Or.inl rfl) "m1" "statusbar_message" "x"⟩

/-- C3, counterexample. Dispatching ("statusbar_message", "Ready") with no
module loaded performs no status-bar update at all: the reserved-key handling
sits inside the loop over loaded modules, so with an empty loaded-modules
collection the status-bar text is not updated (the claim demands exactly one
update in every state, including with no modules loaded). -/
theorem statusbar_empty_no_update_counterexample :
    (dispatch_signals ([] : List String) "statusbar_message" ("Ready" : String)).count
      (DispatchEvent.statusbar "Ready") = 0 := by
  decide

/-- C3, amended. Whenever at least one module is loaded, dispatching
("statusbar_message", v) updates the host status bar to v exactly once and
has no other effect; with no module loaded the update does not happen. -/
theorem statusbar_nonempty_exactly_once {α V : Type} (mods : List α) (value : V)
    (h : mods ≠ []) :
    dispatch_signals mods "statusbar_message" value = [DispatchEvent.statusbar value] := by
  cases mods with
  | nil => exact absurd rfl h
  | cons m rest => simp [dispatch_signals]

theorem statusbar_nonempty_exactly_once_witness :
    (["m1"] : List String) ≠ [] ∧
    dispatch_signals (["m1"] : List String) "statusbar_message" ("Ready" : String) =
      [DispatchEvent.statusbar "Ready"] :=
  ⟨by decide, statusbar_nonempty_exactly_once ["m1"] "Ready" (by decide)⟩

/-- C5. The dispatch loop has no per-handler exception isolation: with two
loaded modules of which the first raises in `process_signals` on key "boom",
dispatching ("boom", v) invokes the first module's handler, propagates its
exception, and never invokes the second module's handler — delivery to the
remaining modules is aborted, contrary to the error-handling requirement. -/
theorem dispatch_exception_aborts_delivery :
    (dispatch_signalsExc
        [⟨"m1", fun k _ => k == "boom"⟩, ⟨"m2", fun _ _ => false⟩]
        "boom" ("v" : String)).1 =
      [DispatchEvent.procSignal "m1" "boom" "v"] ∧
    (dispatch_signalsExc
        [⟨"m1", fun k _ => k == "boom"⟩, ⟨"m2", fun _ _ => false⟩]
        "boom" ("v" : String)).2 = true ∧
    ∀ (k : String) (v : String),
      DispatchEvent.procSignal "m2" k v ∉
        (dispatch_signalsExc
          [⟨"m1", fun k _ => k == "boom"⟩, ⟨"m2", fun _ _ => false⟩]
          "boom" ("v" : String)).1 := by
  refine ⟨rfl, rfl, ?_⟩
  intro k v hmem
  simp [dispatch_signalsExc] at hmem

/- ## add_module on the loaded_modules dict -/

theorem lookupDict_mem_values {α : Type} (d : List (String × α)) (n : String) (x : α)
    (h : lookupDict d n = some x) : x ∈ d.map Prod.snd := by
  induction d with
  | nil => simp [lookupDict] at h
  | cons p rest ih =>
      obtain ⟨k, v⟩ := p
      by_cases hk : k = n
      · simp [lookupDict, hk] at h
        simp [h]
      · simp [lookupDict, hk] at h
        simp [ih h]

theorem add_module_length {α : Type} (d : List (String × α)) (n : String) (x : α)
    (h : (lookupDict d n).isSome) :
    (add_module d n x).length = d.length := by
  induction d with
  | nil => simp [lookupDict] at h
  | cons p rest ih =>
      obtain ⟨k, v⟩ := p
      by_cases hk : k = n
      · simp [add_module, hk]
      · simp [lookupDict, hk] at h
        simp [add_module, hk, ih h]

theorem lookupDict_add_module_self {α : Type} (d : List (String × α)) (n : String) (x : α) :
    lookupDict (add_module d n x) n = some x := by
  induction d with
  | nil => simp [add_module, lookupDict]
  | cons p rest ih =>
      obtain ⟨k, v⟩ := p
      by_cases hk : k = n
      · simp [add_module, hk, lookupDict]
      · simp [add_module, hk, lookupDict, ih]

theorem mem_values_add_module {α : Type} (d : List (String × α)) (n : String) (x : α) :
    x ∈ (add_module d n x).map Prod.snd := by
  induction d with
  | nil => simp [add_module]
  | cons p rest ih =>
      obtain ⟨k, v⟩ := p
      by_cases hk : k = n
      · simp [add_module, hk]
      · simp only [add_module, if_neg hk, List.map_cons, List.mem_cons]
        exact Or.inr ih

theorem values_add_module_count_zero {α : Type} [DecidableEq α]
    (d : List (String × α)) (n : String) (old x : α)
    (hl : lookupDict d n = some old)
    (hc : (d.map Prod.snd).count old = 1)
    (hne : old ≠ x) :
    ((add_module d n x).map Prod.snd).count old = 0 := by
  induction d with
  | nil => simp [lookupDict] at hl
  | cons p rest ih =>
      obtain ⟨k, v⟩ := p
      by_cases hk : k = n
      · simp [lookupDict, hk] at hl
        subst hl
        simp [add_module, hk, List.count_cons] at hc ⊢
        simpa [List.count_eq_zero, Ne.symm hne] using hc
      · simp [lookupDict, hk] at hl
        have hvne : v ≠ old := by
          intro hv
          subst hv
          have hmem := lookupDict_mem_values rest n v hl
          have : 0 < (rest.map Prod.snd).count v := List.count_pos_iff.mpr hmem
          simp [List.count_cons] at hc
          omega
        simp [add_module, hk, List.count_cons, Ne.symm hvne] at hc ⊢
        exact ih hl hc

/-- C10. Calling add_module with a name already registered silently replaces
the previous module: the name maps to the new module afterwards, the dict
size is unchanged, and a subsequent non-reserved dispatch invokes
process_signals on the new module but never on the replaced one. -/
theorem add_module_replaces_existing {α V : Type} [DecidableEq α]
    (d : List (String × α)) (name : String) (old new : α)
    (key : String) (value : V)
    (hold : lookupDict d name = some old)
    (hcount : (d.map Prod.snd).count old = 1)
    (hne : old ≠ new)
    (hs : key ≠ "statusbar_message") (hn : key ≠ "notification") :
    (add_module d name new).length = d.length ∧
    lookupDict (add_module d name new) name = some new ∧
    DispatchEvent.procSignal new key value ∈
      dispatch_signals ((add_module d name new).map Prod.snd) key value ∧
    DispatchEvent.procSignal old key value ∉
      dispatch_signals ((add_module d name new).map Prod.snd) key value := by
  refine ⟨add_module_length d name new (by simp [hold]),
    lookupDict_add_module_self d name new, ?_, ?_⟩
  · rw [dispatch_signals_eq_map _ key value hs hn]
    exact List.mem_map_of_mem _ (mem_values_add_module d name new)
  · rw [dispatch_signals_eq_map _ key value hs hn]
    intro hmem
    rcases List.mem_map.mp hmem with ⟨a, ha, heq⟩
    simp only [DispatchEvent.procSignal.injEq] at heq
    obtain ⟨rfl, -, -⟩ := heq
    have hz := values_add_module_count_zero d name a new hold hcount hne
    rw [List.count_eq_zero] at hz
    exact hz ha

theorem add_module_replaces_existing_witness :
    lookupDict [("a", "oldmod")] "a" = some "oldmod" ∧
    (add_module [("a", "oldmod")] "a" "newmod").length = 1 ∧
    lookupDict (add_module [("a", "oldmod")] "a" "newmod") "a" = some "newmod" ∧
    DispatchEvent.procSignal "newmod" "sig" "v" ∈
      dispatch_signals ((add_module [("a", "oldmod")] "a" "newmod").map Prod.snd)
        "sig" ("v" : String) ∧
    DispatchEvent.procSignal "oldmod" "sig" "v" ∉
      dispatch_signals ((add_module [("a", "oldmod")] "a" "newmod").map Prod.snd)
        "sig" ("v" : String) := by
  have h := add_module_replaces_existing [("a", "oldmod")] "a" "oldmod" "newmod"
    "sig" ("v" : String) (by decide) (by decide) (by decide) (by decide) (by decide)
  exact ⟨by decide, h.1, h.2.1, h.2.2.1, h.2.2.2⟩

/- ## load_modules and headless modules -/

theorem load_modules_nil {μ : Type} (st : List (String × PyModule μ)) :
    load_modules [] st = ([LoadEvent.settingsChanged], st) := rfl

theorem load_modules_cons_none {μ : Type} (k : String) (m : PyModule μ)
    (rest : List (String × PyModule μ)) (st : List (String × PyModule μ))
    (hv : m.view = none) :
    load_modules ((k, m) :: rest) st =
      (LoadEvent.connectSignal m :: (load_modules rest st).1, (load_modules rest st).2) := by
  simp [load_modules, hv]

theorem load_modules_cons_some {μ : Type} (k : String) (m : PyModule μ) (v : μ)
    (rest : List (String × PyModule μ)) (st : List (String × PyModule μ))
    (hv : m.view = some v) :
    load_modules ((k, m) :: rest) st =
      (LoadEvent.connectSignal m :: LoadEvent.connectWidgetChanged m ::
        LoadEvent.addModule m.name m :: LoadEvent.connectMenubar m ::
        LoadEvent.onLoading m :: (load_modules rest (add_module st m.name m)).1,
        (load_modules rest (add_module st m.name m)).2) := by
  simp [load_modules, hv]

theorem load_modules_viewed_only {μ : Type} (mods : List (String × PyModule μ))
    (st : List (String × PyModule μ)) (m : PyModule μ) :
    (LoadEvent.onLoading m ∈ (load_modules mods st).1 → m.view.isSome) ∧
    (LoadEvent.connectWidgetChanged m ∈ (load_modules mods st).1 → m.view.isSome) ∧
    (LoadEvent.connectMenubar m ∈ (load_modules mods st).1 → m.view.isSome) ∧
    (∀ n', LoadEvent.addModule n' m ∈ (load_modules mods st).1 → m.view.isSome) := by
  induction mods generalizing st with
  | nil =>
      rw [load_modules_nil]
      refine ⟨?_, ?_, ?_, ?_⟩ <;> simp
  | cons p rest ih =>
      obtain ⟨k, mm⟩ := p
      cases hv : mm.view with
      | none =>
          rw [load_modules_cons_none k mm rest st hv]
          refine ⟨?_, ?_, ?_, ?_⟩
          · intro h
            rcases List.mem_cons.mp h with h | h
            · simp at h
            · exact (ih st).1 h
          · intro h
            rcases List.mem_cons.mp h with h | h
            · simp at h
            · exact (ih st).2.1 h
          · intro h
            rcases List.mem_cons.mp h with h | h
            · simp at h
            · exact (ih st).2.2.1 h
          · intro n' h
            rcases List.mem_cons.mp h with h | h
            · simp at h
            · exact (ih st).2.2.2 n' h
      | some v =>
          rw [load_modules_cons_some k mm v rest st hv]
          refine ⟨?_, ?_, ?_, ?_⟩
          · intro h
            simp only [List.mem_cons] at h
            rcases h with h | h | h | h | h | h
            · simp at h
            · simp at h
            · simp at h
            · simp at h
            · simp only [LoadEvent.onLoading.injEq] at h
              subst h
              simp [hv]
            · exact (ih _).1 h
          · intro h
            simp only [List.mem_cons] at h
            rcases h with h | h | h | h | h | h
            · simp at h
            · simp only [LoadEvent.connectWidgetChanged.injEq] at h
              subst h
              simp [hv]
            · simp at h
            · simp at h
            · simp at h
            · exact (ih _).2.1 h
          · intro h
            simp only [List.mem_cons] at h
            rcases h with h | h | h | h | h | h
            · simp at h
            · simp at h
            · simp at h
            · simp only [LoadEvent.connectMenubar.injEq] at h
              subst h
              simp [hv]
            · simp at h
            · exact (ih _).2.2.1 h
          · intro n' h
            simp only [List.mem_cons] at h
            rcases h with h | h | h | h | h | h
            · simp at h
            · simp at h
            · simp only [LoadEvent.addModule.injEq] at h
              obtain ⟨-, h⟩ := h
              subst h
              simp [hv]
            · simp at h
            · simp at h
            · exact (ih _).2.2.2 n' h

theorem mem_values_add_module_sub {α : Type} (d : List (String × α)) (n : String) (x b : α)
    (h : b ∈ (add_module d n x).map Prod.snd) :
    b = x ∨ b ∈ d.map Prod.snd := by
  induction d with
  | nil =>
      simp [add_module] at h
      exact Or.inl h
  | cons p rest ih =>
      obtain ⟨k, v⟩ := p
      by_cases hk : k = n
      · simp [add_module, hk] at h
        rcases h with h | h
        · exact Or.inl h
        · exact Or.inr (by simp [h])
      · simp only [add_module, if_neg hk, List.map_cons, List.mem_cons] at h
        rcases h with h | h
        · exact Or.inr (by simp [h])
        · rcases ih h with h | h
          · exact Or.inl h
          · exact Or.inr (by simp [h])

theorem load_modules_registered_viewed {μ : Type} (mods : List (String × PyModule μ))
    (st : List (String × PyModule μ)) (m : PyModule μ)
    (h : m ∈ ((load_modules mods st).2.map Prod.snd)) :
    m ∈ st.map Prod.snd ∨ m.view.isSome := by
  induction mods generalizing st with
  | nil =>
      rw [load_modules_nil] at h
      exact Or.inl h
  | cons p rest ih =>
      obtain ⟨k, mm⟩ := p
      cases hv : mm.view with
      | none =>
          rw [load_modules_cons_none k mm rest st hv] at h
          exact ih st h
      | some v =>
          rw [load_modules_cons_some k mm v rest st hv] at h
          rcases ih (add_module st mm.name mm) h with h' | h'
          · rcases mem_values_add_module_sub st mm.name mm m h' with h'' | h''
            · subst h''
              exact Or.inr (by simp [hv])
            · exact Or.inl h''
          · exact Or.inr h'

theorem load_modules_connects_signal {μ : Type} (mods : List (String × PyModule μ))
    (st : List (String × PyModule μ)) (k : String) (m : PyModule μ)
    (h : (k, m) ∈ mods) :
    LoadEvent.connectSignal m ∈ (load_modules mods st).1 := by
  induction mods generalizing st with
  | nil => simp at h
  | cons p rest ih =>
      obtain ⟨k0, m0⟩ := p
      rcases List.mem_cons.mp h with h0 | h0
      · have hm : m0 = m := by
          have := congrArg Prod.snd h0
          exact this.symm
        subst hm
        cases hm0 : m0.view with
        | none =>
            rw [load_modules_cons_none k0 m0 rest st hm0]
            exact List.mem_cons_self _ _
        | some v =>
            rw [load_modules_cons_some k0 m0 v rest st hm0]
            exact List.mem_cons_self _ _
      · cases hm0 : m0.view with
        | none =>
            rw [load_modules_cons_none k0 m0 rest st hm0]
            exact List.mem_cons_of_mem _ (ih st h0)
        | some v =>
            rw [load_modules_cons_some k0 m0 v rest st hm0]
            refine List.mem_cons_of_mem _ (List.mem_cons_of_mem _ (List.mem_cons_of_mem _
              (List.mem_cons_of_mem _ (List.mem_cons_of_mem _ (ih _ h0)))))

/-- C4, counterexample. Loading a single headless module (view is None): the
loop connects its nqrduck_signal and then hits `continue`, so the module is
never added to loaded_modules, its controller's on_loading is never called,
and the resulting loaded-modules dict is empty — the claim says it is still
registered and on_loading still runs. -/
theorem headless_module_skipped_counterexample :
    (load_modules [("m", (⟨"m", none⟩ : PyModule Unit))] []).1 =
      [LoadEvent.connectSignal ⟨"m", none⟩, LoadEvent.settingsChanged] ∧
    (load_modules [("m", (⟨"m", none⟩ : PyModule Unit))] []).2 = [] ∧
    LoadEvent.onLoading (⟨"m", none⟩ : PyModule Unit) ∉
      (load_modules [("m", (⟨"m", none⟩ : PyModule Unit))] []).1 ∧
    LoadEvent.addModule "m" (⟨"m", none⟩ : PyModule Unit) ∉
      (load_modules [("m", (⟨"m", none⟩ : PyModule Unit))] []).1 := by
  refine ⟨rfl, rfl, by decide, by decide⟩

/-- C4, amended. For a discovered module whose view is None, load_modules
only connects its outbound nqrduck_signal to the bus dispatch; everything
else is skipped: the module is not registered in loaded_modules, its
widget/menu wiring does not happen, and its controller's on_loading is never
called. -/
theorem headless_module_only_signal_connected {μ : Type}
    (mods : List (String × PyModule μ)) (k : String) (m : PyModule μ)
    (hk : (k, m) ∈ mods) (hv : m.view = none) :
    LoadEvent.connectSignal m ∈ (load_modules mods []).1 ∧
    LoadEvent.connectWidgetChanged m ∉ (load_modules mods []).1 ∧
    (∀ n', LoadEvent.addModule n' m ∉ (load_modules mods []).1) ∧
    LoadEvent.connectMenubar m ∉ (load_modules mods []).1 ∧
    LoadEvent.onLoading m ∉ (load_modules mods []).1 ∧
    m ∉ ((load_modules mods []).2.map Prod.snd) := by
  have hviewed := load_modules_viewed_only mods [] m
  refine ⟨load_modules_connects_signal mods [] k m hk, ?_, ?_, ?_, ?_, ?_⟩
  · intro hmem
    have := hviewed.2.1 hmem
    simp [hv] at this
  · intro n' hmem
    have := hviewed.2.2.2 n' hmem
    simp [hv] at this
  · intro hmem
    have := hviewed.2.2.1 hmem
    simp [hv] at this
  · intro hmem
    have := hviewed.1 hmem
    simp [hv] at this
  · intro hmem
    rcases load_modules_registered_viewed mods [] m hmem with h | h
    · simp at h
    · simp [hv] at h

theorem headless_module_only_signal_connected_witness :
    (("m", (⟨"m", none⟩ : PyModule Unit)) ∈
      [("m", (⟨"m", none⟩ : PyModule Unit))]) ∧
    (⟨"m", none⟩ : PyModule Unit).view = none ∧
    LoadEvent.connectSignal (⟨"m", none⟩ : PyModule Unit) ∈
      (load_modules [("m", (⟨"m", none⟩ : PyModule Unit))] []).1 ∧
    LoadEvent.onLoading (⟨"m", none⟩ : PyModule Unit) ∉
      (load_modules [("m", (⟨"m", none⟩ : PyModule Unit))] []).1 := by
  have h := headless_module_only_signal_connected
    [("m", (⟨"m", none⟩ : PyModule Unit))] "m" ⟨"m", none⟩ (by decide) rfl
  exact ⟨by decide, rfl, h.1, h.2.2.2.2.1⟩

/- ## _get_modules discovery failures -/

theorem loadAll_error_of_bad {α : Type} (pre post : List (EntryPoint α))
    (bad : EntryPoint α) (msg : String)
    (hpre : ∀ e ∈ pre, ∃ x, e.load = Except.ok x)
    (hbad : bad.load = Except.error msg) :
    ∀ acc, loadAll (pre ++ bad :: post) acc = Except.error (PyErr.loadError msg) := by
  induction pre with
  | nil =>
      intro acc
      simp only [List.nil_append, loadAll, hbad]
  | cons e rest ih =>
      intro acc
      obtain ⟨x, hx⟩ := hpre e (by simp)
      simp only [List.cons_append, loadAll, hx]
      exact ih (fun e' he' => hpre e' (by simp [he'])) _

/-- C8, counterexample. A single bad registered entry makes discovery raise:
with entries [good, bad, good2] where bad's load fails, `_get_modules`
propagates the load error instead of skipping the entry, and the remaining
entry is never loaded — the claim says discovery records the failure,
continues, and never raises for a single bad entry. -/
theorem get_modules_load_failure_counterexample :
    get_modules (⟨Except.ok [⟨"good", Except.ok ()⟩, ⟨"bad", Except.error "boom"⟩,
        ⟨"good2", Except.ok ()⟩], none⟩ : EPApi Unit) =
      Except.error (PyErr.loadError "boom") := rfl

/-- C8, amended. `_get_modules` has no per-entry error handling: a failure
loading any individual entry propagates and aborts the whole discovery (after
any earlier entries loaded fine); the only handled failure is the legacy-API
AttributeError, and only the legacy fallback path raises KeyError for a
missing extension index. -/
theorem get_modules_failure_propagates {α : Type} (pre post : List (EntryPoint α))
    (bad : EntryPoint α) (msg : String) (idx : Option (List (EntryPoint α)))
    (hpre : ∀ e ∈ pre, ∃ x, e.load = Except.ok x)
    (hbad : bad.load = Except.error msg) :
    get_modules (⟨Except.ok (pre ++ bad :: post), idx⟩ : EPApi α) =
      Except.error (PyErr.loadError msg) ∧
    get_modules (⟨Except.error (), none⟩ : EPApi α) = Except.error PyErr.keyError := by
  constructor
  · simp only [get_modules]
    exact loadAll_error_of_bad pre post bad msg hpre hbad []
  · rfl

theorem get_modules_failure_propagates_witness :
    (∀ e ∈ ([⟨"good", Except.ok ()⟩] : List (EntryPoint Unit)), ∃ x, e.load = Except.ok x) ∧
    (⟨"bad", Except.error "boom"⟩ : EntryPoint Unit).load = Except.error "boom" ∧
    get_modules (⟨Except.ok ([⟨"good", Except.ok ()⟩] ++ ⟨"bad", Except.error "boom"⟩ ::
        [⟨"good2", Except.ok ()⟩]), none⟩ : EPApi Unit) =
      Except.error (PyErr.loadError "boom") := by
  have hpre : ∀ e ∈ ([⟨"good", Except.ok ()⟩] : List (EntryPoint Unit)),
      ∃ x, e.load = Except.ok x := by
    intro e he
    simp at he
    subst he
    exact ⟨(), rfl⟩
  have h := get_modules_failure_propagates [⟨"good", Except.ok ()⟩]
    [⟨"good2", Except.ok ()⟩] ⟨"bad", Except.error "boom"⟩ "boom" none hpre rfl
  exact ⟨hpre, rfl, h.1⟩

/- ## InstallThread.run: sequential jobs, single completion -/

/-- C9. The install jobs run strictly sequentially and completion is signalled
once at the end, with every process exit accepted regardless of exit code:
the run trace has length 2n+1; position 2k holds the start of the k-th
module's pip process and position 2k+1 its exit (with whatever exit code the
environment gives it — never inspected), so each job's process starts only
after the previous one exited; the single completion event sits at the end. -/
theorem install_thread_run_trace (mods : List String) (ec : String → Int) :
    (InstallThread_run mods ec).length = 2 * mods.length + 1 ∧
    (∀ k, (hk : k < mods.length) →
      (InstallThread_run mods ec)[2 * k]? = some (InstallEvent.start mods[k]) ∧
      (InstallThread_run mods ec)[2 * k + 1]? =
        some (InstallEvent.exited mods[k] (ec mods[k]))) ∧
    (InstallThread_run mods ec)[2 * mods.length]? = some (InstallEvent.completed true) ∧
    (∀ b, (InstallThread_run mods ec).count (InstallEvent.completed b) =
      if b then 1 else 0) := by
  induction mods with
  | nil =>
      refine ⟨rfl, ?_, rfl, ?_⟩
      · intro k hk
        simp at hk
      · intro b
        cases b <;> simp [InstallThread_run, List.count_cons, List.count_nil]
  | cons m rest ih =>
      refine ⟨?_, ?_, ?_, ?_⟩
      · simp only [InstallThread_run, List.length_cons, ih.1, List.length_cons]
        ring
      · intro k hk
        cases k with
        | zero =>
            simp [InstallThread_run]
        | succ k' =>
            have hk' : k' < rest.length := by
              simpa using Nat.lt_of_succ_lt_succ hk
            have h2 : 2 * (k' + 1) = 2 * k' + 1 + 1 := by ring
            have h3 : 2 * (k' + 1) + 1 = (2 * k' + 1) + 1 + 1 := by ring
            have hr := (ih.2.1) k' hk'
            constructor
            · rw [h2]
              simp only [InstallThread_run, List.getElem?_cons_succ]
              simpa using hr.1
            · rw [h3]
              simp only [InstallThread_run, List.getElem?_cons_succ]
              simpa using hr.2
      · have h2 : 2 * (m :: rest).length = 2 * rest.length + 1 + 1 := by
          simp [List.length_cons]
          ring
        rw [h2]
        simp only [InstallThread_run, List.getElem?_cons_succ]
        exact ih.2.2.1
      · intro b
        have := ih.2.2.2 b
        simp only [InstallThread_run, List.count_cons] at this ⊢
        cases b <;> simp [this]

theorem install_thread_run_trace_witness :
    (1 : Nat) < (["a", "b"] : List String).length ∧
    (InstallThread_run ["a", "b"] (fun _ => 1))[2]? = some (InstallEvent.start "b") ∧
    (InstallThread_run ["a", "b"] (fun _ => 1))[3]? =
      some (InstallEvent.exited "b" 1) ∧
    (InstallThread_run ["a", "b"] (fun _ => 1))[4]? =
      some (InstallEvent.completed true) := by
  have h := install_thread_run_trace ["a", "b"] (fun _ => 1)
  have h1 := h.2.1 1 (by decide)
  exact ⟨by decide, by simpa using h1.1, by simpa using h1.2, by simpa using h.2.2.1⟩

/- ## Selection-state basics -/

theorem writeChecked_same (st : St) (n : String) (b : Bool) :
    (writeChecked st n b) n = { st n with checked := b } := by
  simp [writeChecked]

theorem writeChecked_other (st : St) (n m : String) (b : Bool) (h : m ≠ n) :
    (writeChecked st n b) m = st m := by
  simp [writeChecked, h]

theorem writeChecked_manual (st : St) (n m : String) (b : Bool) :
    ((writeChecked st n b) m).manual = (st m).manual := by
  by_cases h : m = n <;> simp [writeChecked, h]

theorem writeChecked_enabled (st : St) (n m : String) (b : Bool) :
    ((writeChecked st n b) m).enabled = (st m).enabled := by
  by_cases h : m = n <;> simp [writeChecked, h]

theorem writeChecked_checked (st : St) (n m : String) (b : Bool) :
    ((writeChecked st n b) m).checked = if m = n then b else (st m).checked := by
  by_cases h : m = n <;> simp [writeChecked, h]

theorem writeEnabled_same (st : St) (n : String) (b : Bool) :
    (writeEnabled st n b) n = { st n with enabled := b } := by
  simp [writeEnabled]

theorem writeEnabled_other (st : St) (n m : String) (b : Bool) (h : m ≠ n) :
    (writeEnabled st n b) m = st m := by
  simp [writeEnabled, h]

theorem writeEnabled_manual (st : St) (n m : String) (b : Bool) :
    ((writeEnabled st n b) m).manual = (st m).manual := by
  by_cases h : m = n <;> simp [writeEnabled, h]

theorem writeEnabled_checked (st : St) (n m : String) (b : Bool) :
    ((writeEnabled st n b) m).checked = (st m).checked := by
  by_cases h : m = n <;> simp [writeEnabled, h]

theorem writeEnabled_enabled (st : St) (n m : String) (b : Bool) :
    ((writeEnabled st n b) m).enabled = if m = n then b else (st m).enabled := by
  by_cases h : m = n <;> simp [writeEnabled, h]

theorem writeManual_other (st : St) (n m : String) (b : Bool) (h : m ≠ n) :
    (writeManual st n b) m = st m := by
  simp [writeManual, h]

theorem writeManual_checked (st : St) (n m : String) (b : Bool) :
    ((writeManual st n b) m).checked = (st m).checked := by
  by_cases h : m = n <;> simp [writeManual, h]

theorem writeManual_enabled (st : St) (n m : String) (b : Bool) :
    ((writeManual st n b) m).enabled = (st m).enabled := by
  by_cases h : m = n <;> simp [writeManual, h]

/-- `anyCheckedDependent` only reads checked flags, so it is invariant under
pointwise checked-equal states. -/
theorem anyCheckedDependent_congr (C : List CatEntry) (st st' : St) (n : String)
    (h : ∀ e ∈ C, n ∈ e.deps?.getD [] → (st' e.name).checked = (st e.name).checked) :
    anyCheckedDependent C st' n = anyCheckedDependent C st n := by
  induction C with
  | nil => rfl
  | cons e rest ih =>
      have hstep : anyCheckedDependent (e :: rest) st' n =
          (decide (n ∈ e.deps?.getD []) && (st' e.name).checked ||
            anyCheckedDependent rest st' n) := rfl
      have hstep' : anyCheckedDependent (e :: rest) st n =
          (decide (n ∈ e.deps?.getD []) && (st e.name).checked ||
            anyCheckedDependent rest st n) := rfl
      rw [hstep, hstep', ih (fun e' he' hd => h e' (List.mem_cons_of_mem _ he') hd)]
      by_cases hd : n ∈ e.deps?.getD []
      · rw [h e (List.mem_cons_self _ _) hd]
      · simp [hd]

theorem anyCheckedDependent_congr_all (C : List CatEntry) (st st' : St) (n : String)
    (h : ∀ m, (st' m).checked = (st m).checked) :
    anyCheckedDependent C st' n = anyCheckedDependent C st n :=
  anyCheckedDependent_congr C st st' n (fun e _ _ => h e.name)

/-- Checked flags only shrinking can only turn `anyCheckedDependent` off. -/
theorem anyCheckedDependent_mono_down (C : List CatEntry) (st st' : St) (n : String)
    (h : ∀ m, (st' m).checked = true → (st m).checked = true)
    (ha : anyCheckedDependent C st n = false) :
    anyCheckedDependent C st' n = false := by
  simp only [anyCheckedDependent, List.any_eq_false] at ha ⊢
  intro e he
  have := ha e he
  intro hcon
  rcases Bool.and_eq_true_iff.mp hcon with ⟨h1, h2⟩
  exact this (Bool.and_eq_true_iff.mpr ⟨h1, h e.name h2⟩)

/- ## handleDep unfolding equations -/

theorem handleDep_not_mem (C : List CatEntry) (I : List String)
    (fuel : Nat) (ic : Bool) (st : St) (d : String) (h : d ∉ names C) :
    handleDep C I fuel ic st d = st := by
  rw [handleDep, if_neg h]

theorem handleDep_noflip (C : List CatEntry) (I : List String)
    (fuel : Nat) (ic : Bool) (st : St) (d : String) (h : d ∈ names C)
    (hreq : (st d).checked = (ic || (st d).manual || anyCheckedDependent C st d)) :
    handleDep C I fuel ic st d =
      writeEnabled st d (!(decide (d ∈ I)) && !(anyCheckedDependent C st d)) := by
  rw [handleDep, if_pos h]
  simp only [if_pos hreq]

theorem handleDep_flip_zero (C : List CatEntry) (I : List String)
    (ic : Bool) (st : St) (d : String) (h : d ∈ names C)
    (hne : (st d).checked ≠ (ic || (st d).manual || anyCheckedDependent C st d)) :
    handleDep C I 0 ic st d =
      writeEnabled (writeChecked st d (ic || (st d).manual || anyCheckedDependent C st d)) d
        (!(decide (d ∈ I)) &&
          !(anyCheckedDependent C
            (writeChecked st d (ic || (st d).manual || anyCheckedDependent C st d)) d)) := by
  rw [handleDep, if_pos h]
  simp only [if_neg hne]

theorem handleDep_flip_succ (C : List CatEntry) (I : List String)
    (f : Nat) (ic : Bool) (st : St) (d : String) (h : d ∈ names C)
    (hne : (st d).checked ≠ (ic || (st d).manual || anyCheckedDependent C st d)) :
    handleDep C I (f + 1) ic st d =
      writeEnabled
        (cascadeFold C I f (ic || (st d).manual || anyCheckedDependent C st d)
          (writeChecked st d (ic || (st d).manual || anyCheckedDependent C st d))
          (get_dependencies C d))
        d
        (!(decide (d ∈ I)) &&
          !(anyCheckedDependent C
            (cascadeFold C I f (ic || (st d).manual || anyCheckedDependent C st d)
              (writeChecked st d (ic || (st d).manual || anyCheckedDependent C st d))
              (get_dependencies C d)) d)) := by
  rw [handleDep, if_pos h]
  simp only [if_neg hne]
  rfl

theorem cascadeFold_nil (C : List CatEntry) (I : List String)
    (fuel : Nat) (ic : Bool) (st : St) :
    cascadeFold C I fuel ic st [] = st := rfl

theorem cascadeFold_cons (C : List CatEntry) (I : List String)
    (fuel : Nat) (ic : Bool) (st : St) (d : String) (ds : List String) :
    cascadeFold C I fuel ic st (d :: ds) =
      cascadeFold C I fuel ic (handleDep C I fuel ic st d) ds := rfl

/- ## Cascades never touch manually_checked, names outside the catalog,
     or the enabled flag of an installed module -/

theorem handleDep_manual_eq (C : List CatEntry) (I : List String) :
    ∀ (fuel : Nat) (ic : Bool) (st : St) (d n : String),
      ((handleDep C I fuel ic st d) n).manual = (st n).manual := by
  intro fuel
  induction fuel with
  | zero =>
      intro ic st d n
      by_cases h : d ∈ names C
      · by_cases hreq : (st d).checked = (ic || (st d).manual || anyCheckedDependent C st d)
        · rw [handleDep_noflip C I 0 ic st d h hreq, writeEnabled_manual]
        · rw [handleDep_flip_zero C I ic st d h hreq, writeEnabled_manual,
            writeChecked_manual]
      · rw [handleDep_not_mem C I 0 ic st d h]
  | succ f ih =>
      intro ic st d n
      have hfold : ∀ (ds : List String) (ic' : Bool) (st' : St),
          ((cascadeFold C I f ic' st' ds) n).manual = (st' n).manual := by
        intro ds
        induction ds with
        | nil => intro ic' st'; rfl
        | cons d2 ds2 ihds =>
            intro ic' st'
            rw [cascadeFold_cons, ihds, ih]
      by_cases h : d ∈ names C
      · by_cases hreq : (st d).checked = (ic || (st d).manual || anyCheckedDependent C st d)
        · rw [handleDep_noflip C I (f + 1) ic st d h hreq, writeEnabled_manual]
        · rw [handleDep_flip_succ C I f ic st d h hreq, writeEnabled_manual, hfold,
            writeChecked_manual]
      · rw [handleDep_not_mem C I (f + 1) ic st d h]

theorem cascadeFold_manual_eq (C : List CatEntry) (I : List String)
    (fuel : Nat) (ic : Bool) (ds : List String) :
    ∀ (st : St) (n : String),
      ((cascadeFold C I fuel ic st ds) n).manual = (st n).manual := by
  induction ds with
  | nil => intro st n; rfl
  | cons d ds ih =>
      intro st n
      rw [cascadeFold_cons, ih, handleDep_manual_eq]

theorem handleDep_outside (C : List CatEntry) (I : List String) :
    ∀ (fuel : Nat) (ic : Bool) (st : St) (d n : String), n ∉ names C →
      (handleDep C I fuel ic st d) n = st n := by
  intro fuel
  induction fuel with
  | zero =>
      intro ic st d n hn
      by_cases h : d ∈ names C
      · have hdn : n ≠ d := fun he => hn (he ▸ h)
        by_cases hreq : (st d).checked = (ic || (st d).manual || anyCheckedDependent C st d)
        · rw [handleDep_noflip C I 0 ic st d h hreq, writeEnabled_other st d n _ hdn]
        · rw [handleDep_flip_zero C I ic st d h hreq,
            writeEnabled_other _ d n _ hdn, writeChecked_other st d n _ hdn]
      · rw [handleDep_not_mem C I 0 ic st d h]
  | succ f ih =>
      intro ic st d n hn
      have hfold : ∀ (ds : List String) (ic' : Bool) (st' : St),
          (cascadeFold C I f ic' st' ds) n = st' n := by
        intro ds
        induction ds with
        | nil => intro ic' st'; rfl
        | cons d2 ds2 ihds =>
            intro ic' st'
            rw [cascadeFold_cons, ihds, ih _ st' d2 n hn]
      by_cases h : d ∈ names C
      · have hdn : n ≠ d := fun he => hn (he ▸ h)
        by_cases hreq : (st d).checked = (ic || (st d).manual || anyCheckedDependent C st d)
        · rw [handleDep_noflip C I (f + 1) ic st d h hreq, writeEnabled_other st d n _ hdn]
        · rw [handleDep_flip_succ C I f ic st d h hreq, writeEnabled_other _ d n _ hdn,
            hfold, writeChecked_other st d n _ hdn]
      · rw [handleDep_not_mem C I (f + 1) ic st d h]

theorem cascadeFold_outside (C : List CatEntry) (I : List String)
    (fuel : Nat) (ic : Bool) (ds : List String) :
    ∀ (st : St) (n : String), n ∉ names C →
      (cascadeFold C I fuel ic st ds) n = st n := by
  induction ds with
  | nil => intro st n _; rfl
  | cons d ds ih =>
      intro st n hn
      rw [cascadeFold_cons, ih _ n hn, handleDep_outside C I fuel ic st d n hn]

theorem handleDep_installed_enabled (C : List CatEntry) (I : List String)
    (n : String) (hn : n ∈ I) :
    ∀ (fuel : Nat) (ic : Bool) (st : St) (d : String),
      (st n).enabled = false → ((handleDep C I fuel ic st d) n).enabled = false := by
  intro fuel
  induction fuel with
  | zero =>
      intro ic st d he
      by_cases h : d ∈ names C
      · by_cases hreq : (st d).checked = (ic || (st d).manual || anyCheckedDependent C st d)
        · rw [handleDep_noflip C I 0 ic st d h hreq, writeEnabled_enabled]
          by_cases hdn : n = d
          · subst hdn
            simp [hn]
          · simp [hdn, he]
        · rw [handleDep_flip_zero C I ic st d h hreq, writeEnabled_enabled]
          by_cases hdn : n = d
          · subst hdn
            simp [hn]
          · simp [hdn, writeChecked_enabled, he]
      · rw [handleDep_not_mem C I 0 ic st d h]
        exact he
  | succ f ih =>
      intro ic st d he
      have hfold : ∀ (ds : List String) (ic' : Bool) (st' : St),
          (st' n).enabled = false → ((cascadeFold C I f ic' st' ds) n).enabled = false := by
        intro ds
        induction ds with
        | nil => intro ic' st' h'; exact h'
        | cons d2 ds2 ihds =>
            intro ic' st' h'
            rw [cascadeFold_cons]
            exact ihds ic' _ (ih ic' st' d2 h')
      by_cases h : d ∈ names C
      · by_cases hreq : (st d).checked = (ic || (st d).manual || anyCheckedDependent C st d)
        · rw [handleDep_noflip C I (f + 1) ic st d h hreq, writeEnabled_enabled]
          by_cases hdn : n = d
          · subst hdn
            simp [hn]
          · simp [hdn, he]
        · rw [handleDep_flip_succ C I f ic st d h hreq, writeEnabled_enabled]
          by_cases hdn : n = d
          · subst hdn
            simp [hn]
          · simp only [hdn, if_false]
            exact hfold _ _ _ (by rw [writeChecked_enabled]; exact he)
      · rw [handleDep_not_mem C I (f + 1) ic st d h]
        exact he

theorem cascadeFold_installed_enabled (C : List CatEntry) (I : List String)
    (n : String) (hn : n ∈ I) (fuel : Nat) (ic : Bool) (ds : List String) :
    ∀ (st : St), (st n).enabled = false →
      ((cascadeFold C I fuel ic st ds) n).enabled = false := by
  induction ds with
  | nil => intro st h; exact h
  | cons d ds ih =>
      intro st h
      rw [cascadeFold_cons]
      exact ih _ (handleDep_installed_enabled C I n hn fuel ic st d h)

/-- C6, counterexample. With module A already installed and module B declaring
A as a dependency, checking B and then unchecking B unchecks the installed
entry A: `handle_dependency_action` calls `setChecked` on the dependency's
checkbox even when it belongs to an installed module, so the SelectionState
of an already-installed entry does transition. -/
theorem installed_entry_unchecked_counterexample :
    (initialSt ["A"] "A").checked = true ∧
    ((userToggle c6Catalog ["A"] 2
        (userToggle c6Catalog ["A"] 2 (initialSt ["A"]) "B" true) "B" false) "A").checked
      = false := by
  constructor
  · rfl
  · rfl

/-- C6, amended. An already-installed catalog entry starts checked and
disabled, its enabled flag stays false through any toggle (`can_enable` is
false for installed modules, so every recomputation disables it again), and
it is never returned by get_install_modules; its checked flag, however, can
be cleared by dependency propagation (see the counterexample). -/
theorem installed_entry_amended (C : List CatEntry) (I : List String)
    (st : St) (n : String) (fuel : Nat)
    (hn : n ∈ I) (he : (st n).enabled = false) :
    (initialSt I n).checked = true ∧
    (initialSt I n).enabled = false ∧
    (∀ ks, n ∉ get_install_modules ks st I) ∧
    (∀ (m : String) (b : Bool), ((userToggle C I fuel st m b) n).enabled = false) := by
  refine ⟨by simp [initialSt, hn], by simp [initialSt, hn], ?_, ?_⟩
  · intro ks hmem
    rw [get_install_modules, List.mem_filter] at hmem
    rcases Bool.and_eq_true_iff.mp hmem.2 with ⟨-, h2⟩
    rw [Bool.not_eq_true'] at h2
    exact absurd hn (of_decide_eq_false h2)
  · intro m b
    rw [userToggle, writeManual_enabled, on_checkbox_changed]
    exact cascadeFold_installed_enabled C I n hn fuel b _ _
      (by rw [writeChecked_enabled]; exact he)

theorem installed_entry_amended_witness :
    ("A" ∈ (["A"] : List String)) ∧
    ((initialSt ["A"]) "A").enabled = false ∧
    (initialSt ["A"] "A").checked = true ∧
    ("A" ∉ get_install_modules (names c6Catalog) (initialSt ["A"]) ["A"]) ∧
    ((userToggle c6Catalog ["A"] 2 (initialSt ["A"]) "B" true) "A").enabled = false := by
  have h := installed_entry_amended c6Catalog ["A"] (initialSt ["A"]) "A" 2
    (by decide) (by rfl)
  exact ⟨by decide, by rfl, h.1, h.2.2.1 (names c6Catalog), h.2.2.2 "B" true⟩

/- ## Catalog lemmas under unique names -/

theorem cbx_eq (a b : Cbx) (h1 : a.checked = b.checked) (h2 : a.enabled = b.enabled)
    (h3 : a.manual = b.manual) : a = b := by
  cases a
  cases b
  simp_all

theorem get_dependencies_not_mem (C : List CatEntry) (n : String)
    (h : n ∉ names C) : get_dependencies C n = [] := by
  induction C with
  | nil => rfl
  | cons e rest ih =>
      have hne : e.name ≠ n := by
        intro he
        exact h (by simp [names, he])
      rw [get_dependencies, if_neg hne]
      exact ih (fun hmem => h (by simp [names] at hmem ⊢; exact Or.inr hmem))

theorem get_dependencies_eq_of_nodup (C : List CatEntry)
    (hN : (names C).Nodup) (e : CatEntry) (he : e ∈ C) (n : String) (hn : e.name = n) :
    get_dependencies C n = e.deps?.getD [] := by
  induction C with
  | nil => simp at he
  | cons e0 rest ih =>
      have hN' : e0.name ∉ names rest ∧ (names rest).Nodup := by
        rw [names, List.map_cons, List.nodup_cons] at hN
        exact ⟨fun hm => hN.1 hm, hN.2⟩
      rcases List.mem_cons.mp he with he0 | he0
      · subst he0
        rw [get_dependencies, if_pos hn]
        cases hd : e.deps? with
        | none =>
            rw [get_dependencies_not_mem rest n (hn ▸ hN'.1)]
            simp [hd]
        | some ds => simp [hd]
      · have hne : e0.name ≠ n := by
          intro hcon
          exact hN'.1 (hcon ▸ hn ▸ List.mem_map_of_mem (fun e => CatEntry.name e) he0)
        rw [get_dependencies, if_neg hne]
        exact ih hN'.2 he0

theorem deps_getD_eq_get_dependencies (C : List CatEntry)
    (hN : (names C).Nodup) (e : CatEntry) (he : e ∈ C) :
    e.deps?.getD [] = get_dependencies C e.name :=
  (get_dependencies_eq_of_nodup C hN e he e.name rfl).symm

theorem anyCheckedDependent_intro (C : List CatEntry) (st : St) (n : String)
    (e : CatEntry) (he : e ∈ C) (hd : n ∈ e.deps?.getD [])
    (hc : (st e.name).checked = true) :
    anyCheckedDependent C st n = true := by
  rw [anyCheckedDependent, List.any_eq_true]
  exact ⟨e, he, by rw [Bool.and_eq_true_iff]; exact ⟨decide_eq_true hd, hc⟩⟩

theorem anyCheckedDependent_elim (C : List CatEntry) (st : St) (n : String)
    (h : anyCheckedDependent C st n = false) :
    ∀ e ∈ C, n ∈ e.deps?.getD [] → (st e.name).checked = false := by
  intro e he hd
  rw [anyCheckedDependent, List.any_eq_false] at h
  have h2 := h e he
  by_contra hcon
  have hc : (st e.name).checked = true := by
    cases hcc : (st e.name).checked
    · exact absurd hcc hcon
    · rfl
  exact h2 (Bool.and_eq_true_iff.mpr ⟨decide_eq_true hd, hc⟩)

/-- Direct dependencies of a checked catalog module: all in-catalog ones were
checked in `st0`, and none of them is a module nobody checked may require. -/
theorem goodDeps_of_checked (C : List CatEntry) (st0 : St) (M : String)
    (hN : (names C).Nodup) (hClosed : depsClosed C st0)
    (hMnoDep : anyCheckedDependent C st0 M = false)
    (p : String) (hp : p ∈ names C) (hc : (st0 p).checked = true) :
    GoodDeps C st0 M (get_dependencies C p) := by
  rcases List.mem_map.mp hp with ⟨e, he, hname⟩
  intro d hd hdn
  rw [get_dependencies_eq_of_nodup C hN e he p hname] at hd
  constructor
  · exact hClosed e he (by rw [hname]; exact hc) d hd hdn
  · intro hdM
    subst hdM
    have := anyCheckedDependent_intro C st0 d e he hd (by rw [hname]; exact hc)
    rw [this] at hMnoDep
    exact Bool.true_eq_false ▸ hMnoDep ▸ rfl

/- ## Counting checked boxes for the cascade fuel bound -/

theorem filter_length_mono (l : List String) (p q : String → Bool)
    (h : ∀ y ∈ l, q y = true → p y = true) :
    (l.filter q).length ≤ (l.filter p).length := by
  induction l with
  | nil => simp
  | cons x rest ih =>
      have ih' := ih (fun y hy => h y (by simp [hy]))
      by_cases hq : q x = true
      · rw [List.filter_cons_of_pos hq, List.filter_cons_of_pos (h x (by simp) hq)]
        simpa using ih'
      · rw [List.filter_cons_of_neg (by simpa using hq)]
        by_cases hp : p x = true
        · rw [List.filter_cons_of_pos hp]
          exact Nat.le_succ_of_le ih'
        · rw [List.filter_cons_of_neg (by simpa using hp)]
          exact ih'

theorem filter_length_flip (l : List String) (hN : l.Nodup) (x : String) (hx : x ∈ l)
    (p q : String → Bool) (hpx : p x = true) (hqx : q x = false)
    (hother : ∀ y ∈ l, y ≠ x → q y = p y) :
    (l.filter q).length + 1 ≤ (l.filter p).length := by
  induction l with
  | nil => simp at hx
  | cons a rest ih =>
      rw [List.nodup_cons] at hN
      rcases List.mem_cons.mp hx with rfl | hx'
      · rw [List.filter_cons_of_pos hpx, List.filter_cons_of_neg (by simp [hqx])]
        have : ∀ y ∈ rest, q y = p y := by
          intro y hy
          exact hother y (by simp [hy]) (fun hyx => hN.1 (hyx ▸ hy))
        have hle : (rest.filter q).length ≤ (rest.filter p).length := by
          apply filter_length_mono
          intro y hy hqy
          rw [← this y hy]
          exact hqy
        simpa using Nat.succ_le_succ hle
      · have ih' := ih hN.2 hx' (fun y hy hyx => hother y (by simp [hy]) hyx)
        by_cases hq : q a = true
        · have hp : p a = true := by
            rw [← hother a (by simp) (fun hax => hN.1 (hax ▸ hx'))]
            exact hq
          rw [List.filter_cons_of_pos hq, List.filter_cons_of_pos hp]
          simpa using ih'
        · rw [List.filter_cons_of_neg (by simpa using hq)]
          by_cases hp : p a = true
          · rw [List.filter_cons_of_pos hp]
            exact Nat.le_succ_of_le ih'
          · rw [List.filter_cons_of_neg (by simpa using hp)]
            exact ih'

theorem filter_all_false (l : List String) (p : String → Bool)
    (h : (l.filter p).length = 0) : ∀ y ∈ l, p y = false := by
  intro y hy
  rcases List.length_eq_zero.mp h with hnil
  by_contra hcon
  have hpy : p y = true := by
    cases hpy : p y
    · exact absurd hpy hcon
    · rfl
  have : y ∈ l.filter p := List.mem_filter.mpr ⟨hy, hpy⟩
  rw [hnil] at this
  simp at this

theorem cntTrue_le_len (C : List CatEntry) (st : St) : cntTrue C st ≤ C.length := by
  calc cntTrue C st ≤ (names C).length := List.length_filter_le _ _
  _ = C.length := by simp [names]

theorem cntFalse_le_len (C : List CatEntry) (st : St) : cntFalse C st ≤ C.length := by
  calc cntFalse C st ≤ (names C).length := List.length_filter_le _ _
  _ = C.length := by simp [names]

theorem cntTrue_mono (C : List CatEntry) (st st' : St)
    (h : ∀ n, (st' n).checked = true → (st n).checked = true) :
    cntTrue C st' ≤ cntTrue C st :=
  filter_length_mono (names C) _ _ (fun y _ hy => h y hy)

theorem cntFalse_mono (C : List CatEntry) (st st' : St)
    (h : ∀ n, (st n).checked = true → (st' n).checked = true) :
    cntFalse C st' ≤ cntFalse C st := by
  apply filter_length_mono
  intro y _ hy
  rw [Bool.not_eq_true'] at hy ⊢
  by_contra hcon
  have : (st y).checked = true := by
    cases hc : (st y).checked
    · exact absurd hc hcon
    · rfl
  rw [h y this] at hy
  simp at hy

theorem cntTrue_flip_down (C : List CatEntry) (st : St) (d : String)
    (hN : (names C).Nodup) (hd : d ∈ names C) (hc : (st d).checked = true) :
    cntTrue C (writeChecked st d false) + 1 ≤ cntTrue C st := by
  apply filter_length_flip (names C) hN d hd _ _ hc
  · rw [writeChecked_checked]
    simp
  · intro y _ hy
    rw [writeChecked_checked, if_neg hy]

theorem cntFalse_flip_up (C : List CatEntry) (st : St) (d : String)
    (hN : (names C).Nodup) (hd : d ∈ names C) (hc : (st d).checked = false) :
    cntFalse C (writeChecked st d true) + 1 ≤ cntFalse C st := by
  apply filter_length_flip (names C) hN d hd _ _ (by simp [hc])
  · rw [writeChecked_checked]
    simp
  · intro y _ hy
    rw [writeChecked_checked, if_neg hy]

theorem cntTrue_zero (C : List CatEntry) (st : St) (h : cntTrue C st = 0) :
    ∀ n ∈ names C, (st n).checked = false :=
  filter_all_false (names C) _ h

theorem cntFalse_zero (C : List CatEntry) (st : St) (h : cntFalse C st = 0) :
    ∀ n ∈ names C, (st n).checked = true := by
  intro n hn
  have := filter_all_false (names C) _ h n hn
  simpa using this

/- ## Kill chains -/

theorem kca_transform (C : List CatEntry) (r1 r2 : List String) :
    ∀ (K e1 e2 : List String), KillChainAux C r1 e1 K →
      (∀ n ∈ r1, n ∈ r2 ∨ ∃ p ∈ e2, n ∈ get_dependencies C p) →
      (∀ p ∈ e1, p ∈ e2) →
      KillChainAux C r2 e2 K := by
  intro K
  induction K with
  | nil => intro e1 e2 _ _ _; trivial
  | cons n K' ih =>
      intro e1 e2 h hr he
      obtain ⟨hhead, htail⟩ := h
      constructor
      · rcases hhead with hroot | ⟨p, hp, hdep⟩
        · exact hr n hroot
        · exact Or.inr ⟨p, he p hp, hdep⟩
      · apply ih (e1 ++ [n]) (e2 ++ [n]) htail
        · intro m hm
          rcases hr m hm with h1 | ⟨p, hp, hdep⟩
          · exact Or.inl h1
          · exact Or.inr ⟨p, by simp [hp], hdep⟩
        · intro p hp
          rcases List.mem_append.mp hp with hp | hp
          · exact List.mem_append.mpr (Or.inl (he p hp))
          · exact List.mem_append.mpr (Or.inr hp)

theorem kca_append (C : List CatEntry) (r : List String) :
    ∀ (K1 K2 e : List String), KillChainAux C r e K1 →
      KillChainAux C r (e ++ K1) K2 →
      KillChainAux C r e (K1 ++ K2) := by
  intro K1
  induction K1 with
  | nil =>
      intro K2 e _ h2
      simpa using h2
  | cons n K1' ih =>
      intro K2 e h1 h2
      obtain ⟨hhead, htail⟩ := h1
      refine ⟨hhead, ?_⟩
      apply ih K2 (e ++ [n]) htail
      have : e ++ n :: K1' = (e ++ [n]) ++ K1' := by simp
      rw [this] at h2
      exact h2

theorem killChain_append (C : List CatEntry) (r1 r2 : List String)
    (K1 K2 : List String)
    (h1 : KillChain C r1 K1) (h2 : KillChain C r2 K2)
    (hr1 : ∀ n ∈ r1, n ∈ r1 ++ r2) (hr2 : ∀ n ∈ r2, n ∈ r1 ++ r2) :
    KillChain C (r1 ++ r2) (K1 ++ K2) := by
  apply kca_append
  · exact kca_transform C r1 (r1 ++ r2) K1 [] [] h1 (fun n hn => Or.inl (hr1 n hn))
      (fun p hp => hp)
  · exact kca_transform C r2 (r1 ++ r2) K2 [] ([] ++ K1) h2
      (fun n hn => Or.inl (hr2 n hn)) (by simp)

theorem killChain_embed (C : List CatEntry) (roots : List String) (d : String)
    (hd : d ∈ roots) (K : List String)
    (h : KillChain C (get_dependencies C d) K) :
    KillChain C roots (d :: K) := by
  refine ⟨Or.inl hd, ?_⟩
  exact kca_transform C (get_dependencies C d) roots K [] [d] h
    (fun n hn => Or.inr ⟨d, by simp, hn⟩) (by simp)

/- ## Stability transfer -/

theorem stable_of_inputs (C : List CatEntry) (I : List String) (st1 st2 : St)
    (n : String) (hs : StableAt C I st1 n)
    (he : (st2 n).enabled = (st1 n).enabled) (hi : InputsEq C st1 st2 n) :
    StableAt C I st2 n := by
  rw [StableAt, he, hs, anyCheckedDependent_congr C st1 st2 n hi]

theorem inputsEq_trans (C : List CatEntry) (st1 st2 st3 : St) (n : String)
    (h1 : InputsEq C st1 st2 n) (h2 : InputsEq C st2 st3 n) :
    InputsEq C st1 st3 n := by
  intro e he hd
  rw [h2 e he hd, h1 e he hd]

theorem inputsEq_of_checked_eq (C : List CatEntry) (st1 st2 : St) (n : String)
    (h : ∀ m, (st2 m).checked = (st1 m).checked) : InputsEq C st1 st2 n :=
  fun e _ _ => h e.name

theorem userToggle_eq (C : List CatEntry) (I : List String) (fuel : Nat)
    (st : St) (m : String) (b : Bool) :
    userToggle C I fuel st m b =
      writeManual (cascadeFold C I fuel b (writeChecked st m b) (get_dependencies C m))
        m b := rfl

theorem bool_eq_false_of_not_true (b : Bool) (h : ¬ b = true) : b = false := by
  cases b
  · rfl
  · exact absurd rfl h

theorem bool_eq_true_of_not_false (b : Bool) (h : ¬ b = false) : b = true := by
  cases b
  · exact absurd rfl h
  · rfl

/- ## Composition and single-step lemmas for the uncheck cascade -/

theorem postA_id (C : List CatEntry) (I : List String) (M : String) (st : St)
    (ds : List String) (h : ∀ n ∈ ds, n ∉ names C) : PostA C I M st ds st := by
  refine ⟨fun n hn => hn, fun n => rfl, rfl, fun n _ => rfl, ?_, ?_, ?_⟩
  · intro n hn hmem
    exact absurd hmem (h n hn)
  · intro n _
    exact Or.inr ⟨rfl, fun e _ _ => rfl⟩
  · exact ⟨[], by simp, fun n hf => Or.inl hf, trivial⟩

theorem postA_comp (C : List CatEntry) (I : List String) (M : String)
    (st st1 st2 : St) (ds1 ds2 : List String)
    (P1 : PostA C I M st ds1 st1) (P2 : PostA C I M st1 ds2 st2) :
    PostA C I M st (ds1 ++ ds2) st2 := by
  refine ⟨?_, ?_, ?_, ?_, ?_, ?_, ?_⟩
  · intro n h
    exact P1.mono n (P2.mono n h)
  · intro n
    rw [P2.manualEq n, P1.manualEq n]
  · rw [P2.untouchedM, P1.untouchedM]
  · intro n hn
    rw [P2.outside n hn, P1.outside n hn]
  · intro n hn hmem
    rcases List.mem_append.mp hn with h1 | h2
    · have hs1 := P1.stabDs n h1 hmem
      rcases P2.stabAll n hmem with hs2 | ⟨he, hi⟩
      · exact hs2
      · exact stable_of_inputs C I st1 st2 n hs1 he hi
    · exact P2.stabDs n h2 hmem
  · intro n hn
    rcases P2.stabAll n hn with hs2 | ⟨he2, hi2⟩
    · exact Or.inl hs2
    · rcases P1.stabAll n hn with hs1 | ⟨he1, hi1⟩
      · exact Or.inl (stable_of_inputs C I st1 st2 n hs1 he2 hi2)
      · exact Or.inr ⟨by rw [he2, he1], inputsEq_trans C st st1 st2 n hi1 hi2⟩
  · obtain ⟨K1, hK1a, hK1b, hK1c⟩ := P1.kills
    obtain ⟨K2, hK2a, hK2b, hK2c⟩ := P2.kills
    refine ⟨K1 ++ K2, ?_, ?_, ?_⟩
    · intro n hn
      rcases List.mem_append.mp hn with h1 | h2
      · obtain ⟨hna, hnb, hnc⟩ := hK1a n h1
        refine ⟨hna, ?_, hnc⟩
        by_contra hcon
        have hc := bool_eq_true_of_not_false _ hcon
        rw [P2.mono n hc] at hnb
        simp at hnb
      · obtain ⟨hna, hnb, hnc⟩ := hK2a n h2
        exact ⟨hna, hnb, P1.mono n hnc⟩
    · intro n hf
      rcases hK2b n hf with h1 | h2
      · rcases hK1b n h1 with h1' | h2'
        · exact Or.inl h1'
        · exact Or.inr (List.mem_append.mpr (Or.inl h2'))
      · exact Or.inr (List.mem_append.mpr (Or.inr h2))
    · exact killChain_append C ds1 ds2 K1 K2 hK1c hK2c
        (fun n hn => List.mem_append.mpr (Or.inl hn))
        (fun n hn => List.mem_append.mpr (Or.inr hn))

/-- The no-flip step of `handle_dependency_action`: the dependency's checked
state already equals the required state, so only its enabled flag is
recomputed. -/
theorem stepA_noflip (C : List CatEntry) (I : List String) (st0 : St) (M : String)
    (st : St) (d : String) (hdmem : d ∈ names C) (hdM : d ≠ M)
    (hPre : PreA C st0 M st) :
    PreA C st0 M (writeEnabled st d (!(decide (d ∈ I)) && !(anyCheckedDependent C st d))) ∧
    PostA C I M st [d]
      (writeEnabled st d (!(decide (d ∈ I)) && !(anyCheckedDependent C st d))) := by
  have hchk : ∀ n, ((writeEnabled st d (!(decide (d ∈ I)) && !(anyCheckedDependent C st d))) n).checked
      = (st n).checked := fun n => writeEnabled_checked st d n _
  have hany : ∀ n, anyCheckedDependent C
      (writeEnabled st d (!(decide (d ∈ I)) && !(anyCheckedDependent C st d))) n =
      anyCheckedDependent C st n := fun n => anyCheckedDependent_congr_all C st _ n hchk
  constructor
  · refine ⟨?_, ?_, ?_, ?_⟩
    · intro n h
      rw [hchk n] at h
      exact hPre.checkedLe n h
    · intro n
      rw [writeEnabled_manual]
      exact hPre.manualEq n
    · intro n hnM h0 hf
      rw [hchk n] at hf
      obtain ⟨h1, h2⟩ := hPre.killedFree n hnM h0 hf
      exact ⟨h1, by rw [hany n]; exact h2⟩
    · rw [writeEnabled_other st d M _ (Ne.symm hdM)]
      exact hPre.atM
  · refine ⟨?_, ?_, ?_, ?_, ?_, ?_, ?_⟩
    · intro n h
      rw [hchk n] at h
      exact h
    · intro n
      rw [writeEnabled_manual]
    · rw [writeEnabled_other st d M _ (Ne.symm hdM)]
    · intro n hn
      have hnd : n ≠ d := fun h => hn (h ▸ hdmem)
      rw [writeEnabled_other st d n _ hnd]
    · intro n hn hmem
      have hnd : n = d := by simpa using hn
      subst hnd
      rw [StableAt, hany n, writeEnabled_enabled]
      simp
    · intro n hn
      by_cases hnd : n = d
      · subst hnd
        refine Or.inl ?_
        rw [StableAt, hany n, writeEnabled_enabled]
        simp
      · refine Or.inr ⟨?_, ?_⟩
        · rw [writeEnabled_enabled, if_neg hnd]
        · exact inputsEq_of_checked_eq C st _ n hchk
    · refine ⟨[], by simp, ?_, trivial⟩
      intro n hf
      rw [hchk n] at hf
      exact Or.inl hf

/-- The kill step of `handle_dependency_action`: the dependency is unchecked
(its required state computed false), its own dependencies are handled by the
recursive `stateChanged` cascade (whose outcome is `inner`), and finally its
enabled flag is recomputed. -/
theorem stepA_flip (C : List CatEntry) (I : List String) (st0 : St) (M : String)
    (hN : (names C).Nodup)
    (st inner : St) (d : String)
    (hdmem : d ∈ names C) (hdM : d ≠ M)
    (hcd : (st d).checked = true)
    (hPreInner : PreA C st0 M inner)
    (hPostInner : PostA C I M (writeChecked st d false) (get_dependencies C d) inner) :
    PreA C st0 M
      (writeEnabled inner d (!(decide (d ∈ I)) && !(anyCheckedDependent C inner d))) ∧
    PostA C I M st [d]
      (writeEnabled inner d (!(decide (d ∈ I)) && !(anyCheckedDependent C inner d))) := by
  have hchk1 : ∀ n,
      ((writeEnabled inner d (!(decide (d ∈ I)) && !(anyCheckedDependent C inner d))) n).checked
      = (inner n).checked := fun n => writeEnabled_checked inner d n _
  have hany1 : ∀ n, anyCheckedDependent C
      (writeEnabled inner d (!(decide (d ∈ I)) && !(anyCheckedDependent C inner d))) n =
      anyCheckedDependent C inner n := fun n => anyCheckedDependent_congr_all C inner _ n hchk1
  have hstw : ∀ n, (inner n).checked = true → n ≠ d ∧ (st n).checked = true := by
    intro n h
    have h2 := hPostInner.mono n h
    rw [writeChecked_checked] at h2
    by_cases hnd : n = d
    · rw [if_pos hnd] at h2
      simp at h2
    · rw [if_neg hnd] at h2
      exact ⟨hnd, h2⟩
  constructor
  · refine ⟨?_, ?_, ?_, ?_⟩
    · intro n h
      rw [hchk1 n] at h
      exact hPreInner.checkedLe n h
    · intro n
      rw [writeEnabled_manual]
      exact hPreInner.manualEq n
    · intro n hnM h0 hf
      rw [hchk1 n] at hf
      obtain ⟨h1, h2⟩ := hPreInner.killedFree n hnM h0 hf
      exact ⟨h1, by rw [hany1 n]; exact h2⟩
    · rw [writeEnabled_other inner d M _ (Ne.symm hdM)]
      exact hPreInner.atM
  · refine ⟨?_, ?_, ?_, ?_, ?_, ?_, ?_⟩
    · intro n h
      rw [hchk1 n] at h
      exact (hstw n h).2
    · intro n
      rw [writeEnabled_manual, hPostInner.manualEq n, writeChecked_manual]
    · rw [writeEnabled_other inner d M _ (Ne.symm hdM), hPostInner.untouchedM,
        writeChecked_other st d M _ (Ne.symm hdM)]
    · intro n hn
      have hnd : n ≠ d := fun h => hn (h ▸ hdmem)
      rw [writeEnabled_other inner d n _ hnd, hPostInner.outside n hn,
        writeChecked_other st d n _ hnd]
    · intro n hn hmem
      have hnd : n = d := by simpa using hn
      subst hnd
      rw [StableAt, hany1 n, writeEnabled_enabled]
      simp
    · intro n hn
      by_cases hnd : n = d
      · subst hnd
        refine Or.inl ?_
        rw [StableAt, hany1 n, writeEnabled_enabled]
        simp
      · by_cases hins : n ∈ get_dependencies C d
        · have hsi := hPostInner.stabDs n hins hn
          refine Or.inl (stable_of_inputs C I inner _ n hsi ?_ ?_)
          · rw [writeEnabled_enabled, if_neg hnd]
          · exact inputsEq_of_checked_eq C inner _ n hchk1
        · rcases hPostInner.stabAll n hn with hsi | ⟨hei, hii⟩
          · refine Or.inl (stable_of_inputs C I inner _ n hsi ?_ ?_)
            · rw [writeEnabled_enabled, if_neg hnd]
            · exact inputsEq_of_checked_eq C inner _ n hchk1
          · refine Or.inr ⟨?_, ?_⟩
            · rw [writeEnabled_enabled, if_neg hnd, hei, writeChecked_enabled]
            · intro e he hd2
              have hed : e.name ≠ d := by
                intro hed
                apply hins
                have hds : e.deps?.getD [] = get_dependencies C d := by
                  rw [deps_getD_eq_get_dependencies C hN e he, hed]
                rw [← hds]
                exact hd2
              rw [hchk1 e.name, hii e he hd2, writeChecked_checked, if_neg hed]
    · obtain ⟨K, hKa, hKb, hKc⟩ := hPostInner.kills
      refine ⟨d :: K, ?_, ?_, ?_⟩
      · intro n hn
        rcases List.mem_cons.mp hn with rfl | hn'
        · refine ⟨hdmem, ?_, hcd⟩
          rw [hchk1 n]
          by_contra hcon
          have hc := bool_eq_true_of_not_false _ hcon
          exact absurd rfl (hstw n hc).1
        · obtain ⟨hna, hnb, hnc⟩ := hKa n hn'
          refine ⟨hna, by rw [hchk1 n]; exact hnb, ?_⟩
          rw [writeChecked_checked] at hnc
          by_cases hnd : n = d
          · rw [if_pos hnd] at hnc
            simp at hnc
          · rw [if_neg hnd] at hnc
            exact hnc
      · intro n hf
        rw [hchk1 n] at hf
        rcases hKb n hf with h1 | h2
        · rw [writeChecked_checked] at h1
          by_cases hnd : n = d
          · exact Or.inr (hnd ▸ List.mem_cons_self d K)
          · rw [if_neg hnd] at h1
            exact Or.inl h1
        · exact Or.inr (List.mem_cons_of_mem d h2)
      · exact killChain_embed C [d] d (by simp) K hKc

theorem bool_or_false_parts (a b : Bool) (h : (a || b) = false) :
    a = false ∧ b = false := by
  cases a <;> cases b <;> simp_all

/-- Master lemma for the uncheck cascade: under the phase invariant, folding
`handle_dependency_action` with `is_checked = False` over a worklist of
previously-checked dependencies preserves the invariant and satisfies the
uncheck postcondition (monotone unchecking, stability, and a kill chain). -/
theorem masterA (C : List CatEntry) (I : List String) (st0 : St) (M : String)
    (hN : (names C).Nodup) (hClosed : depsClosed C st0)
    (hMnoDep : anyCheckedDependent C st0 M = false) :
    ∀ (fuel : Nat) (ds : List String) (st : St),
      PreA C st0 M st → GoodDeps C st0 M ds → cntTrue C st ≤ fuel →
      PreA C st0 M (cascadeFold C I fuel false st ds) ∧
      PostA C I M st ds (cascadeFold C I fuel false st ds) := by
  intro fuel
  induction fuel with
  | zero =>
      intro ds
      induction ds with
      | nil =>
          intro st hPre _ _
          rw [cascadeFold_nil]
          exact ⟨hPre, postA_id C I M st [] (by simp)⟩
      | cons d ds ihds =>
          intro st hPre hGood hcnt
          rw [cascadeFold_cons]
          have hcnt0 : cntTrue C st = 0 := Nat.le_zero.mp hcnt
          by_cases hdmem : d ∈ names C
          · have hcdf : (st d).checked = false := cntTrue_zero C st hcnt0 d hdmem
            obtain ⟨hd0, hdM⟩ := hGood d (by simp) hdmem
            obtain ⟨hm0, ha⟩ := hPre.killedFree d hdM hd0 hcdf
            have hm : (st d).manual = false := by rw [hPre.manualEq d]; exact hm0
            have hreq : (st d).checked =
                (false || (st d).manual || anyCheckedDependent C st d) := by
              rw [hcdf, hm, ha]
              rfl
            rw [handleDep_noflip C I 0 false st d hdmem hreq]
            have hstep := stepA_noflip C I st0 M st d hdmem hdM hPre
            have hcnt1 : cntTrue C
                (writeEnabled st d (!(decide (d ∈ I)) && !(anyCheckedDependent C st d))) ≤ 0 := by
              have := cntTrue_mono C st
                (writeEnabled st d (!(decide (d ∈ I)) && !(anyCheckedDependent C st d)))
                (fun n h => by
                  rw [writeEnabled_checked] at h
                  exact h)
              omega
            have hrest := ihds _ hstep.1
              (fun x hx hmx => hGood x (by simp [hx]) hmx) hcnt1
            exact ⟨hrest.1, postA_comp C I M st _ _ [d] ds hstep.2 hrest.2⟩
          · rw [handleDep_not_mem C I 0 false st d hdmem]
            have hrest := ihds st hPre (fun x hx hmx => hGood x (by simp [hx]) hmx) hcnt
            refine ⟨hrest.1, ?_⟩
            have hstep : PostA C I M st [d] st := postA_id C I M st [d] (by
              intro n hn
              have : n = d := by simpa using hn
              subst this
              exact hdmem)
            exact postA_comp C I M st st _ [d] ds hstep hrest.2
  | succ f ihf =>
      intro ds
      induction ds with
      | nil =>
          intro st hPre _ _
          rw [cascadeFold_nil]
          exact ⟨hPre, postA_id C I M st [] (by simp)⟩
      | cons d ds ihds =>
          intro st hPre hGood hcnt
          rw [cascadeFold_cons]
          by_cases hdmem : d ∈ names C
          · obtain ⟨hd0, hdM⟩ := hGood d (by simp) hdmem
            by_cases hflip : (st d).checked =
                (false || (st d).manual || anyCheckedDependent C st d)
            · rw [handleDep_noflip C I (f + 1) false st d hdmem hflip]
              have hstep := stepA_noflip C I st0 M st d hdmem hdM hPre
              have hcnt1 : cntTrue C
                  (writeEnabled st d (!(decide (d ∈ I)) && !(anyCheckedDependent C st d)))
                  ≤ f + 1 := by
                have := cntTrue_mono C st
                  (writeEnabled st d (!(decide (d ∈ I)) && !(anyCheckedDependent C st d)))
                  (fun n h => by
                    rw [writeEnabled_checked] at h
                    exact h)
                omega
              have hrest := ihds _ hstep.1
                (fun x hx hmx => hGood x (by simp [hx]) hmx) hcnt1
              exact ⟨hrest.1, postA_comp C I M st _ _ [d] ds hstep.2 hrest.2⟩
            · have hcd : (st d).checked = true := by
                by_contra hcon
                have hcdf : (st d).checked = false := bool_eq_false_of_not_true _ hcon
                obtain ⟨hm0, ha⟩ := hPre.killedFree d hdM hd0 hcdf
                have hm : (st d).manual = false := by rw [hPre.manualEq d]; exact hm0
                exact hflip (by rw [hcdf, hm, ha]; rfl)
              have hreqf : (false || (st d).manual || anyCheckedDependent C st d) = false := by
                by_contra hcon
                have hrt := bool_eq_true_of_not_false _ hcon
                exact hflip (by rw [hcd, hrt])
              have hparts : (st d).manual = false ∧ anyCheckedDependent C st d = false := by
                have h1 := bool_or_false_parts _ _ hreqf
                have h2 := bool_or_false_parts _ _ h1.1
                exact ⟨h2.2, h1.2⟩
              have hPrew : PreA C st0 M (writeChecked st d false) := by
                refine ⟨?_, ?_, ?_, ?_⟩
                · intro n h
                  rw [writeChecked_checked] at h
                  by_cases hnd : n = d
                  · rw [if_pos hnd] at h
                    simp at h
                  · rw [if_neg hnd] at h
                    exact hPre.checkedLe n h
                · intro n
                  rw [writeChecked_manual]
                  exact hPre.manualEq n
                · intro n hnM h0 hf2
                  rw [writeChecked_checked] at hf2
                  have hmono : ∀ m, ((writeChecked st d false) m).checked = true →
                      (st m).checked = true := by
                    intro m hm2
                    rw [writeChecked_checked] at hm2
                    by_cases hmd : m = d
                    · rw [if_pos hmd] at hm2
                      simp at hm2
                    · rw [if_neg hmd] at hm2
                      exact hm2
                  by_cases hnd : n = d
                  · subst hnd
                    refine ⟨by rw [← hPre.manualEq n]; exact hparts.1, ?_⟩
                    exact anyCheckedDependent_mono_down C st _ n hmono hparts.2
                  · rw [if_neg hnd] at hf2
                    obtain ⟨h1, h2⟩ := hPre.killedFree n hnM h0 hf2
                    exact ⟨h1, anyCheckedDependent_mono_down C st _ n hmono h2⟩
                · rw [writeChecked_other st d M _ (Ne.symm hdM)]
                  exact hPre.atM
              have hGoodInner : GoodDeps C st0 M (get_dependencies C d) :=
                goodDeps_of_checked C st0 M hN hClosed hMnoDep d hdmem hd0
              have hcntw : cntTrue C (writeChecked st d false) ≤ f := by
                have := cntTrue_flip_down C st d hN hdmem hcd
                omega
              have hinner := ihf (get_dependencies C d) (writeChecked st d false)
                hPrew hGoodInner hcntw
              have heq := handleDep_flip_succ C I f false st d hdmem hflip
              rw [hreqf] at heq
              rw [heq]
              have hstep := stepA_flip C I st0 M hN st _ d hdmem hdM hcd
                hinner.1 hinner.2
              have hcnt1 : cntTrue C
                  (writeEnabled (cascadeFold C I f false (writeChecked st d false)
                    (get_dependencies C d)) d
                    (!(decide (d ∈ I)) && !(anyCheckedDependent C
                      (cascadeFold C I f false (writeChecked st d false)
                        (get_dependencies C d)) d))) ≤ f + 1 := by
                have := cntTrue_mono C st
                  (writeEnabled (cascadeFold C I f false (writeChecked st d false)
                    (get_dependencies C d)) d
                    (!(decide (d ∈ I)) && !(anyCheckedDependent C
                      (cascadeFold C I f false (writeChecked st d false)
                        (get_dependencies C d)) d))) (hstep.2.mono)
                omega
              have hrest := ihds _ hstep.1
                (fun x hx hmx => hGood x (by simp [hx]) hmx) hcnt1
              exact ⟨hrest.1, postA_comp C I M st _ _ [d] ds hstep.2 hrest.2⟩
          · rw [handleDep_not_mem C I (f + 1) false st d hdmem]
            have hrest := ihds st hPre (fun x hx hmx => hGood x (by simp [hx]) hmx) hcnt
            refine ⟨hrest.1, ?_⟩
            have hstep : PostA C I M st [d] st := postA_id C I M st [d] (by
              intro n hn
              have : n = d := by simpa using hn
              subst this
              exact hdmem)
            exact postA_comp C I M st st _ [d] ds hstep hrest.2

/- ## Composition and single-step lemmas for the recheck cascade -/

theorem postB_id (C : List CatEntry) (I : List String) (st0 : St) (M : String)
    (st : St) (ds : List String) (h : ∀ n ∈ ds, n ∉ names C) :
    PostB C I st0 M st ds st := by
  refine ⟨fun n hn => hn, fun n hn => Or.inl hn, fun n => rfl, rfl, fun n _ => rfl,
    ?_, ?_, ?_, ?_⟩
  · intro n hn hmem
    exact absurd hmem (h n hn)
  · intro n _
    exact Or.inr ⟨rfl, fun e _ _ => rfl⟩
  · intro n hn hmem
    exact absurd hmem (h n hn)
  · intro p hf ht
    rw [ht] at hf
    simp at hf

theorem postB_comp (C : List CatEntry) (I : List String) (st0 : St) (M : String)
    (st st1 st2 : St) (ds1 ds2 : List String)
    (P1 : PostB C I st0 M st ds1 st1) (P2 : PostB C I st0 M st1 ds2 st2) :
    PostB C I st0 M st (ds1 ++ ds2) st2 := by
  refine ⟨?_, ?_, ?_, ?_, ?_, ?_, ?_, ?_, ?_⟩
  · intro n h
    exact P2.monoUp n (P1.monoUp n h)
  · intro n h
    rcases P2.flipBound n h with h1 | h2
    · rcases P1.flipBound n h1 with h1' | h2'
      · exact Or.inl h1'
      · exact Or.inr h2'
    · exact Or.inr h2
  · intro n
    rw [P2.manualEq n, P1.manualEq n]
  · rw [P2.untouchedM, P1.untouchedM]
  · intro n hn
    rw [P2.outside n hn, P1.outside n hn]
  · intro n hn hmem
    rcases List.mem_append.mp hn with h1 | h2
    · have hs1 := P1.stabDs n h1 hmem
      rcases P2.stabAll n hmem with hs2 | ⟨he, hi⟩
      · exact hs2
      · exact stable_of_inputs C I st1 st2 n hs1 he hi
    · exact P2.stabDs n h2 hmem
  · intro n hn
    rcases P2.stabAll n hn with hs2 | ⟨he2, hi2⟩
    · exact Or.inl hs2
    · rcases P1.stabAll n hn with hs1 | ⟨he1, hi1⟩
      · exact Or.inl (stable_of_inputs C I st1 st2 n hs1 he2 hi2)
      · exact Or.inr ⟨by rw [he2, he1], inputsEq_trans C st st1 st2 n hi1 hi2⟩
  · intro n hn hmem
    rcases List.mem_append.mp hn with h1 | h2
    · exact P2.monoUp n (P1.dsChecked n h1 hmem)
    · exact P2.dsChecked n h2 hmem
  · intro p hf ht
    by_cases h1 : (st1 p).checked = true
    · intro d2 hd2 hd2m
      exact P2.monoUp d2 (P1.flipDeps p hf h1 d2 hd2 hd2m)
    · have h1' : (st1 p).checked = false := bool_eq_false_of_not_true _ h1
      exact P2.flipDeps p h1' ht

/-- The no-flip step of the recheck cascade: the dependency is already
checked, so only its enabled flag is recomputed. -/
theorem stepB_noflip (C : List CatEntry) (I : List String) (st0 : St) (M : String)
    (st : St) (d : String) (hdmem : d ∈ names C) (hdM : d ≠ M)
    (hcd : (st d).checked = true) :
    PostB C I st0 M st [d]
      (writeEnabled st d (!(decide (d ∈ I)) && !(anyCheckedDependent C st d))) := by
  have hchk : ∀ n,
      ((writeEnabled st d (!(decide (d ∈ I)) && !(anyCheckedDependent C st d))) n).checked
      = (st n).checked := fun n => writeEnabled_checked st d n _
  have hany : ∀ n, anyCheckedDependent C
      (writeEnabled st d (!(decide (d ∈ I)) && !(anyCheckedDependent C st d))) n =
      anyCheckedDependent C st n := fun n => anyCheckedDependent_congr_all C st _ n hchk
  refine ⟨?_, ?_, ?_, ?_, ?_, ?_, ?_, ?_, ?_⟩
  · intro n h
    rw [hchk n]
    exact h
  · intro n h
    rw [hchk n] at h
    exact Or.inl h
  · intro n
    rw [writeEnabled_manual]
  · rw [writeEnabled_other st d M _ (Ne.symm hdM)]
  · intro n hn
    have hnd : n ≠ d := fun h => hn (h ▸ hdmem)
    rw [writeEnabled_other st d n _ hnd]
  · intro n hn hmem
    have hnd : n = d := by simpa using hn
    subst hnd
    rw [StableAt, hany n, writeEnabled_enabled]
    simp
  · intro n hn
    by_cases hnd : n = d
    · subst hnd
      refine Or.inl ?_
      rw [StableAt, hany n, writeEnabled_enabled]
      simp
    · refine Or.inr ⟨?_, ?_⟩
      · rw [writeEnabled_enabled, if_neg hnd]
      · exact inputsEq_of_checked_eq C st _ n hchk
  · intro n hn hmem
    have hnd : n = d := by simpa using hn
    subst hnd
    rw [hchk n]
    exact hcd
  · intro p hf ht
    rw [hchk p] at ht
    rw [ht] at hf
    simp at hf

/-- The flip step of the recheck cascade: the dependency gets checked, the
recursive `stateChanged` cascade handles its own dependencies (outcome
`inner`), then its enabled flag is recomputed. -/
theorem stepB_flip (C : List CatEntry) (I : List String) (st0 : St) (M : String)
    (hN : (names C).Nodup)
    (st inner : St) (d : String)
    (hdmem : d ∈ names C) (hdM : d ≠ M)
    (hcd : (st d).checked = false) (hd0 : (st0 d).checked = true)
    (hPostInner : PostB C I st0 M (writeChecked st d true) (get_dependencies C d) inner) :
    PostB C I st0 M st [d]
      (writeEnabled inner d (!(decide (d ∈ I)) && !(anyCheckedDependent C inner d))) := by
  have hchk1 : ∀ n,
      ((writeEnabled inner d (!(decide (d ∈ I)) && !(anyCheckedDependent C inner d))) n).checked
      = (inner n).checked := fun n => writeEnabled_checked inner d n _
  have hany1 : ∀ n, anyCheckedDependent C
      (writeEnabled inner d (!(decide (d ∈ I)) && !(anyCheckedDependent C inner d))) n =
      anyCheckedDependent C inner n := fun n => anyCheckedDependent_congr_all C inner _ n hchk1
  have hup : ∀ n, (st n).checked = true → ((writeChecked st d true) n).checked = true := by
    intro n h
    rw [writeChecked_checked]
    by_cases hnd : n = d
    · rw [if_pos hnd]
    · rw [if_neg hnd]
      exact h
  refine ⟨?_, ?_, ?_, ?_, ?_, ?_, ?_, ?_, ?_⟩
  · intro n h
    rw [hchk1 n]
    exact hPostInner.monoUp n (hup n h)
  · intro n h
    rw [hchk1 n] at h
    rcases hPostInner.flipBound n h with h1 | h2
    · rw [writeChecked_checked] at h1
      by_cases hnd : n = d
      · subst hnd
        exact Or.inr ⟨hd0, hdM⟩
      · rw [if_neg hnd] at h1
        exact Or.inl h1
    · exact Or.inr h2
  · intro n
    rw [writeEnabled_manual, hPostInner.manualEq n, writeChecked_manual]
  · rw [writeEnabled_other inner d M _ (Ne.symm hdM), hPostInner.untouchedM,
      writeChecked_other st d M _ (Ne.symm hdM)]
  · intro n hn
    have hnd : n ≠ d := fun h => hn (h ▸ hdmem)
    rw [writeEnabled_other inner d n _ hnd, hPostInner.outside n hn,
      writeChecked_other st d n _ hnd]
  · intro n hn hmem
    have hnd : n = d := by simpa using hn
    subst hnd
    rw [StableAt, hany1 n, writeEnabled_enabled]
    simp
  · intro n hn
    by_cases hnd : n = d
    · subst hnd
      refine Or.inl ?_
      rw [StableAt, hany1 n, writeEnabled_enabled]
      simp
    · by_cases hins : n ∈ get_dependencies C d
      · have hsi := hPostInner.stabDs n hins hn
        refine Or.inl (stable_of_inputs C I inner _ n hsi ?_ ?_)
        · rw [writeEnabled_enabled, if_neg hnd]
        · exact inputsEq_of_checked_eq C inner _ n hchk1
      · rcases hPostInner.stabAll n hn with hsi | ⟨hei, hii⟩
        · refine Or.inl (stable_of_inputs C I inner _ n hsi ?_ ?_)
          · rw [writeEnabled_enabled, if_neg hnd]
          · exact inputsEq_of_checked_eq C inner _ n hchk1
        · refine Or.inr ⟨?_, ?_⟩
          · rw [writeEnabled_enabled, if_neg hnd, hei, writeChecked_enabled]
          · intro e he hd2
            have hed : e.name ≠ d := by
              intro hed
              apply hins
              have hds : e.deps?.getD [] = get_dependencies C d := by
                rw [deps_getD_eq_get_dependencies C hN e he, hed]
              rw [← hds]
              exact hd2
            rw [hchk1 e.name, hii e he hd2, writeChecked_checked, if_neg hed]
  · intro n hn hmem
    have hnd : n = d := by simpa using hn
    subst hnd
    rw [hchk1 n]
    apply hPostInner.monoUp n
    rw [writeChecked_checked, if_pos rfl]
  · intro p hf ht
    rw [hchk1 p] at ht
    by_cases hpd : p = d
    · subst hpd
      intro d2 hd2 hd2m
      rw [hchk1 d2]
      exact hPostInner.dsChecked d2 hd2 hd2m
    · have hstw : ((writeChecked st d true) p).checked = false := by
        rw [writeChecked_checked, if_neg hpd]
        exact hf
      intro d2 hd2 hd2m
      rw [hchk1 d2]
      exact hPostInner.flipDeps p hstw ht d2 hd2 hd2m

/-- Master lemma for the recheck cascade: folding `handle_dependency_action`
with `is_checked = True` over a worklist of originally-checked dependencies
checks them all, only rechecks originally-checked modules, cascades through
every flip, and satisfies the recheck postcondition. -/
theorem masterB (C : List CatEntry) (I : List String) (st0 : St) (M : String)
    (hN : (names C).Nodup) (hClosed : depsClosed C st0)
    (hMnoDep : anyCheckedDependent C st0 M = false) :
    ∀ (fuel : Nat) (ds : List String) (st : St),
      (∀ n, (st n).checked = true → (st0 n).checked = true ∨ n = M) →
      GoodDeps C st0 M ds → cntFalse C st ≤ fuel →
      (∀ n, ((cascadeFold C I fuel true st ds) n).checked = true →
        (st0 n).checked = true ∨ n = M) ∧
      PostB C I st0 M st ds (cascadeFold C I fuel true st ds) := by
  intro fuel
  induction fuel with
  | zero =>
      intro ds
      induction ds with
      | nil =>
          intro st hPre _ _
          rw [cascadeFold_nil]
          exact ⟨hPre, postB_id C I st0 M st [] (by simp)⟩
      | cons d ds ihds =>
          intro st hPre hGood hcnt
          rw [cascadeFold_cons]
          have hcnt0 : cntFalse C st = 0 := Nat.le_zero.mp hcnt
          by_cases hdmem : d ∈ names C
          · have hcd : (st d).checked = true := cntFalse_zero C st hcnt0 d hdmem
            obtain ⟨hd0, hdM⟩ := hGood d (by simp) hdmem
            have hreq : (st d).checked =
                (true || (st d).manual || anyCheckedDependent C st d) := by
              rw [hcd]
              simp
            rw [handleDep_noflip C I 0 true st d hdmem hreq]
            have hstep := stepB_noflip C I st0 M st d hdmem hdM hcd
            have hPre1 : ∀ n, ((writeEnabled st d
                (!(decide (d ∈ I)) && !(anyCheckedDependent C st d))) n).checked = true →
                (st0 n).checked = true ∨ n = M := by
              intro n h
              rw [writeEnabled_checked] at h
              exact hPre n h
            have hcnt1 : cntFalse C
                (writeEnabled st d (!(decide (d ∈ I)) && !(anyCheckedDependent C st d))) ≤ 0 := by
              have := cntFalse_mono C st
                (writeEnabled st d (!(decide (d ∈ I)) && !(anyCheckedDependent C st d)))
                (fun n h => by rw [writeEnabled_checked]; exact h)
              omega
            have hrest := ihds _ hPre1 (fun x hx hmx => hGood x (by simp [hx]) hmx) hcnt1
            exact ⟨hrest.1, postB_comp C I st0 M st _ _ [d] ds hstep hrest.2⟩
          · rw [handleDep_not_mem C I 0 true st d hdmem]
            have hrest := ihds st hPre (fun x hx hmx => hGood x (by simp [hx]) hmx) hcnt
            refine ⟨hrest.1, ?_⟩
            have hstep : PostB C I st0 M st [d] st := postB_id C I st0 M st [d] (by
              intro n hn
              have : n = d := by simpa using hn
              subst this
              exact hdmem)
            exact postB_comp C I st0 M st st _ [d] ds hstep hrest.2
  | succ f ihf =>
      intro ds
      induction ds with
      | nil =>
          intro st hPre _ _
          rw [cascadeFold_nil]
          exact ⟨hPre, postB_id C I st0 M st [] (by simp)⟩
      | cons d ds ihds =>
          intro st hPre hGood hcnt
          rw [cascadeFold_cons]
          by_cases hdmem : d ∈ names C
          · obtain ⟨hd0, hdM⟩ := hGood d (by simp) hdmem
            by_cases hcd : (st d).checked = true
            · have hreq : (st d).checked =
                  (true || (st d).manual || anyCheckedDependent C st d) := by
                rw [hcd]
                simp
              rw [handleDep_noflip C I (f + 1) true st d hdmem hreq]
              have hstep := stepB_noflip C I st0 M st d hdmem hdM hcd
              have hPre1 : ∀ n, ((writeEnabled st d
                  (!(decide (d ∈ I)) && !(anyCheckedDependent C st d))) n).checked = true →
                  (st0 n).checked = true ∨ n = M := by
                intro n h
                rw [writeEnabled_checked] at h
                exact hPre n h
              have hcnt1 : cntFalse C
                  (writeEnabled st d (!(decide (d ∈ I)) && !(anyCheckedDependent C st d)))
                  ≤ f + 1 := by
                have := cntFalse_mono C st
                  (writeEnabled st d (!(decide (d ∈ I)) && !(anyCheckedDependent C st d)))
                  (fun n h => by rw [writeEnabled_checked]; exact h)
                omega
              have hrest := ihds _ hPre1 (fun x hx hmx => hGood x (by simp [hx]) hmx) hcnt1
              exact ⟨hrest.1, postB_comp C I st0 M st _ _ [d] ds hstep hrest.2⟩
            · have hcdf : (st d).checked = false := bool_eq_false_of_not_true _ hcd
              have hne : (st d).checked ≠
                  (true || (st d).manual || anyCheckedDependent C st d) := by
                rw [hcdf]
                simp
              have hPrew : ∀ n, ((writeChecked st d true) n).checked = true →
                  (st0 n).checked = true ∨ n = M := by
                intro n h
                rw [writeChecked_checked] at h
                by_cases hnd : n = d
                · subst hnd
                  exact Or.inl hd0
                · rw [if_neg hnd] at h
                  exact hPre n h
              have hGoodInner : GoodDeps C st0 M (get_dependencies C d) :=
                goodDeps_of_checked C st0 M hN hClosed hMnoDep d hdmem hd0
              have hcntw : cntFalse C (writeChecked st d true) ≤ f := by
                have := cntFalse_flip_up C st d hN hdmem hcdf
                omega
              have hinner := ihf (get_dependencies C d) (writeChecked st d true)
                hPrew hGoodInner hcntw
              have hreqt : (true || (st d).manual || anyCheckedDependent C st d) = true := by
                simp
              have heq := handleDep_flip_succ C I f true st d hdmem hne
              rw [hreqt] at heq
              rw [heq]
              have hstep := stepB_flip C I st0 M hN st _ d hdmem hdM hcdf hd0 hinner.2
              have hPre1 : ∀ n, ((writeEnabled (cascadeFold C I f true
                  (writeChecked st d true) (get_dependencies C d)) d
                  (!(decide (d ∈ I)) && !(anyCheckedDependent C
                    (cascadeFold C I f true (writeChecked st d true)
                      (get_dependencies C d)) d))) n).checked = true →
                  (st0 n).checked = true ∨ n = M := by
                intro n h
                rw [writeEnabled_checked] at h
                exact hinner.1 n h
              have hcnt1 : cntFalse C
                  (writeEnabled (cascadeFold C I f true (writeChecked st d true)
                    (get_dependencies C d)) d
                    (!(decide (d ∈ I)) && !(anyCheckedDependent C
                      (cascadeFold C I f true (writeChecked st d true)
                        (get_dependencies C d)) d))) ≤ f + 1 := by
                have := cntFalse_mono C st
                  (writeEnabled (cascadeFold C I f true (writeChecked st d true)
                    (get_dependencies C d)) d
                    (!(decide (d ∈ I)) && !(anyCheckedDependent C
                      (cascadeFold C I f true (writeChecked st d true)
                        (get_dependencies C d)) d))) (hstep.monoUp)
                omega
              have hrest := ihds _ hPre1 (fun x hx hmx => hGood x (by simp [hx]) hmx) hcnt1
              exact ⟨hrest.1, postB_comp C I st0 M st _ _ [d] ds hstep hrest.2⟩
          · rw [handleDep_not_mem C I (f + 1) true st d hdmem]
            have hrest := ihds st hPre (fun x hx hmx => hGood x (by simp [hx]) hmx) hcnt
            refine ⟨hrest.1, ?_⟩
            have hstep : PostB C I st0 M st [d] st := postB_id C I st0 M st [d] (by
              intro n hn
              have : n = d := by simpa using hn
              subst this
              exact hdmem)
            exact postB_comp C I st0 M st st _ [d] ds hstep hrest.2

/- ## Assembling the two phases: off-then-on restoration -/

/-- Every module on the uncheck phase's kill chain is re-checked by the
recheck cascade: roots are direct dependencies of the toggled module (handled
by the top-level fold), and every other killed module is a dependency of an
earlier killed module, whose recheck flip cascades into it. -/
theorem kill_restore (C : List CatEntry) (I : List String) (st0 : St) (M : String)
    (stB0 stB : St) (roots : List String)
    (PB : PostB C I st0 M stB0 roots stB) :
    ∀ (K e : List String), KillChainAux C roots e K →
      (∀ p ∈ e, (stB p).checked = true ∧ (stB0 p).checked = false) →
      (∀ p ∈ K, p ∈ names C ∧ (stB0 p).checked = false) →
      ∀ n ∈ K, (stB n).checked = true := by
  intro K
  induction K with
  | nil =>
      intro e _ _ _ n hn
      simp at hn
  | cons m K' ih =>
      intro e hKC hE hK n hn
      obtain ⟨hhead, htail⟩ := hKC
      have hm : (stB m).checked = true := by
        rcases hhead with hroot | ⟨p, hp, hdep⟩
        · exact PB.dsChecked m hroot (hK m (by simp)).1
        · have hpe := hE p hp
          exact PB.flipDeps p hpe.2 hpe.1 m hdep (hK m (by simp)).1
      rcases List.mem_cons.mp hn with rfl | hn'
      · exact hm
      · refine ih (e ++ [m]) htail ?_ (fun p hp => hK p (by simp [hp])) n hn'
        intro p hp
        rcases List.mem_append.mp hp with hp1 | hp2
        · exact hE p hp1
        · have hpm : p = m := by simpa using hp2
          subst hpm
          exact ⟨hm, (hK p (by simp)).2⟩

/-- Core restoration: given the uncheck-phase and recheck-phase
postconditions for toggling `M` off and back on, every checkbox other than
`M` ends in exactly its original state. -/
theorem restore_core (C : List CatEntry) (I : List String) (st0 : St) (M : String)
    (hN : (names C).Nodup)
    (hEn : enabledConsistent C I st0)
    (hM : M ∈ names C) (hMc : (st0 M).checked = true)
    (hMnoDep : anyCheckedDependent C st0 M = false)
    (stA stB : St)
    (hPreA : PreA C st0 M stA)
    (hPostA : PostA C I M (writeChecked st0 M false) (get_dependencies C M) stA)
    (hPostB : PostB C I st0 M (writeChecked (writeManual stA M false) M true)
      (get_dependencies C M) stB) :
    ∀ n, n ≠ M → stB n = st0 n := by
  have hcheq : ∀ n, (stB n).checked = (st0 n).checked := by
    intro n
    by_cases hnM : n = M
    · subst hnM
      have hu := congrArg Cbx.checked hPostB.untouchedM
      rw [hu, writeChecked_checked, if_pos rfl, hMc]
    · by_cases h0 : (st0 n).checked = true
      · rw [h0]
        by_cases hA : (stA n).checked = true
        · apply hPostB.monoUp n
          rw [writeChecked_checked, if_neg hnM, writeManual_checked]
          exact hA
        · have hAf : (stA n).checked = false := bool_eq_false_of_not_true _ hA
          obtain ⟨K, hKa, hKb, hKc⟩ := hPostA.kills
          have hnK : n ∈ K := by
            rcases hKb n hAf with h1 | h2
            · rw [writeChecked_checked, if_neg hnM, h0] at h1
              simp at h1
            · exact h2
          refine kill_restore C I st0 M _ stB (get_dependencies C M) hPostB K []
            hKc (by simp) ?_ n hnK
          intro p hp
          obtain ⟨hpa, hpb, hpc⟩ := hKa p hp
          refine ⟨hpa, ?_⟩
          have hpM : p ≠ M := by
            intro hpM
            subst hpM
            rw [writeChecked_checked, if_pos rfl] at hpc
            simp at hpc
          rw [writeChecked_checked, if_neg hpM, writeManual_checked]
          exact hpb
      · have h0f : (st0 n).checked = false := bool_eq_false_of_not_true _ h0
        rw [h0f]
        by_contra hcon
        have hB := bool_eq_true_of_not_false _ hcon
        rcases hPostB.flipBound n hB with h1 | h2
        · rw [writeChecked_checked, if_neg hnM, writeManual_checked] at h1
          have := hPreA.checkedLe n h1
          rw [h0f] at this
          simp at this
        · rw [h0f] at h2
          rcases h2 with ⟨h2a, -⟩
          simp at h2a
  have hmaneq : ∀ n, n ≠ M → (stB n).manual = (st0 n).manual := by
    intro n hnM
    rw [hPostB.manualEq n, writeChecked_manual]
    have hwm := congrArg Cbx.manual (writeManual_other stA M n false hnM)
    rw [hwm, hPostA.manualEq n, writeChecked_manual]
  have heneq : ∀ n, n ≠ M → (stB n).enabled = (st0 n).enabled := by
    intro n hnM
    by_cases hmem : n ∈ names C
    · have hstable_done : StableAt C I stB n → (stB n).enabled = (st0 n).enabled := by
        intro hs
        rw [StableAt] at hs
        rw [hs, anyCheckedDependent_congr_all C st0 stB n hcheq]
        have h0 := hEn n hmem
        rw [StableAt] at h0
        rw [h0]
      by_cases hins : n ∈ get_dependencies C M
      · exact hstable_done (hPostB.stabDs n hins hmem)
      · rcases hPostB.stabAll n hmem with hs | ⟨heB, hiB⟩
        · exact hstable_done hs
        · have heB' : (stB n).enabled = (stA n).enabled := by
            rw [heB, writeChecked_enabled, writeManual_enabled]
          have hiA0B0 : InputsEq C stA
              (writeChecked (writeManual stA M false) M true) n := by
            intro e he hd2
            by_cases heM : e.name = M
            · exfalso
              apply hins
              have hds : e.deps?.getD [] = get_dependencies C M := by
                rw [deps_getD_eq_get_dependencies C hN e he, heM]
              rw [← hds]
              exact hd2
            · rw [writeChecked_checked, if_neg heM, writeManual_checked]
          have hiAB : InputsEq C stA stB n :=
            inputsEq_trans C stA _ stB n hiA0B0 hiB
          rcases hPostA.stabAll n hmem with hsA | ⟨heA, hiA⟩
          · exact hstable_done (stable_of_inputs C I stA stB n hsA heB' hiAB)
          · rw [heB', heA, writeChecked_enabled]
    · have hB := hPostB.outside n hmem
      have hA := hPostA.outside n hmem
      rw [congrArg Cbx.enabled hB, writeChecked_enabled, writeManual_enabled,
        congrArg Cbx.enabled hA, writeChecked_enabled]
  intro n hnM
  exact cbx_eq (stB n) (st0 n) (hcheq n) (heneq n hnM) (hmaneq n hnM)

/-- C7, counterexample. Quantified over every SelectionState the claim fails:
in the catalog where M depends on D, starting from the state where M is
checked but D is not (and D not manually checked), toggling M off and then
on again leaves D checked — the propagation does not restore D's prior
unchecked state. -/
theorem toggle_restore_counterexample :
    (exStBad "D").checked = false ∧
    ((userToggle exCatalog [] 2
        (userToggle exCatalog [] 2 exStBad "M" false) "M" true) "D").checked = true := by
  exact ⟨rfl, rfl⟩

/-- C7, amended. For every catalog with distinct entry names and every
SelectionState satisfying the wizard's own invariants — every checked entry
has its in-catalog dependencies checked, and every checkbox's enabled flag
matches the recomputed can_enable formula — toggling an enabled, checked
module's checkbox off and then immediately on restores the full
checked/enabled/manuallyChecked state of every other entry (in particular of
every dependency affected by the propagation). -/
theorem toggle_off_on_restores (C : List CatEntry) (I : List String)
    (st0 : St) (M : String) (fuel : Nat)
    (hN : (names C).Nodup)
    (hClosed : depsClosed C st0)
    (hEn : enabledConsistent C I st0)
    (hM : M ∈ names C) (hMc : (st0 M).checked = true) (hMe : (st0 M).enabled = true)
    (hfuel : C.length ≤ fuel) :
    ∀ n, n ≠ M →
      (userToggle C I fuel (userToggle C I fuel st0 M false) M true) n = st0 n := by
  have hMnoDep : anyCheckedDependent C st0 M = false := by
    have hs := hEn M hM
    rw [StableAt, hMe] at hs
    have h2 := (Bool.and_eq_true_iff.mp hs.symm).2
    simpa using h2
  have hPreA0 : PreA C st0 M (writeChecked st0 M false) := by
    refine ⟨?_, ?_, ?_, ?_⟩
    · intro n h
      rw [writeChecked_checked] at h
      by_cases hnM : n = M
      · rw [if_pos hnM] at h
        simp at h
      · rw [if_neg hnM] at h
        exact h
    · intro n
      rw [writeChecked_manual]
    · intro n hnM h0 hf
      rw [writeChecked_checked, if_neg hnM, h0] at hf
      simp at hf
    · rw [writeChecked_same]
  have hGoodM : GoodDeps C st0 M (get_dependencies C M) :=
    goodDeps_of_checked C st0 M hN hClosed hMnoDep M hM hMc
  obtain ⟨hPreA, hPostA⟩ := masterA C I st0 M hN hClosed hMnoDep fuel
    (get_dependencies C M) (writeChecked st0 M false) hPreA0 hGoodM
    (le_trans (cntTrue_le_len C _) hfuel)
  have hPreB0 : ∀ n, ((writeChecked (writeManual (cascadeFold C I fuel false
      (writeChecked st0 M false) (get_dependencies C M)) M false) M true) n).checked = true →
      (st0 n).checked = true ∨ n = M := by
    intro n h
    by_cases hnM : n = M
    · exact Or.inr hnM
    · rw [writeChecked_checked, if_neg hnM, writeManual_checked] at h
      exact Or.inl (hPreA.checkedLe n h)
  obtain ⟨-, hPostB⟩ := masterB C I st0 M hN hClosed hMnoDep fuel
    (get_dependencies C M)
    (writeChecked (writeManual (cascadeFold C I fuel false
      (writeChecked st0 M false) (get_dependencies C M)) M false) M true)
    hPreB0 hGoodM (le_trans (cntFalse_le_len C _) hfuel)
  intro n hnM
  have hfinal := restore_core C I st0 M hN hEn hM hMc hMnoDep
    (cascadeFold C I fuel false (writeChecked st0 M false) (get_dependencies C M))
    (cascadeFold C I fuel true (writeChecked (writeManual (cascadeFold C I fuel false
      (writeChecked st0 M false) (get_dependencies C M)) M false) M true)
      (get_dependencies C M))
    hPreA hPostA hPostB n hnM
  simp only [userToggle_eq]
  rw [writeManual_other _ M n true hnM]
  exact hfinal

theorem toggle_off_on_restores_witness :
    (names exCatalog).Nodup ∧
    depsClosed exCatalog exStGood ∧
    enabledConsistent exCatalog [] exStGood ∧
    "M" ∈ names exCatalog ∧
    (exStGood "M").checked = true ∧
    (exStGood "M").enabled = true ∧
    exCatalog.length ≤ 2 ∧
    (userToggle exCatalog [] 2
      (userToggle exCatalog [] 2 exStGood "M" false) "M" true) "D" = exStGood "D" := by
  refine ⟨by decide, by unfold depsClosed; decide,
    by unfold enabledConsistent StableAt; decide, by decide, rfl, rfl, by decide, ?_⟩
  exact toggle_off_on_restores exCatalog [] exStGood "M" 2 (by decide)
    (by unfold depsClosed; decide) (by unfold enabledConsistent StableAt; decide)
    (by decide) rfl rfl (by decide) "D" (by decide)

end Nqrduck
